import Mathlib

/-!
# Sapphiron encounter script (Naxxramas)

A shallow embedding of `src/server/scripts/Northrend/Naxxramas/boss_sapphiron.cpp`:
the boss controller `boss_sapphiron`, the blizzard helper `npc_sapphiron_blizzard`, and the
spell scripts that retarget blizzards and create ice blocks.

Durations are milliseconds (`Nat`).  Everything the script asks of the engine (random
numbers, target selection, health queries, object creation) is an explicit input of the
embedded function; everything it tells the engine to do (casts, announcements, movement
orders) is recorded in a list of `Effect`s returned next to the new state.
-/

namespace Sapphiron

/-! ## Enumerations of the script -/

/-- Announcement lines, `enum Yells`. -/
inductive Yells
  | EMOTE_AIR_PHASE
  | EMOTE_GROUND_PHASE
  | EMOTE_BREATH
  | EMOTE_ENRAGE
  deriving DecidableEq, Repr

/-- Spell identifiers, `enum Spells`. -/
inductive Spells
  | SPELL_FROST_AURA
  | SPELL_CLEAVE
  | SPELL_TAIL_SWEEP
  | SPELL_SUMMON_BLIZZARD
  | SPELL_LIFE_DRAIN
  | SPELL_ICEBOLT
  | SPELL_FROST_BREATH_ANTICHEAT
  | SPELL_FROST_BREATH
  | SPELL_FROST_MISSILE
  | SPELL_BERSERK
  | SPELL_DIES
  | SPELL_CHECK_RESISTS
  | SPELL_SUMMON_WING_BUFFET
  | SPELL_WING_BUFFET_PERIODIC
  | SPELL_WING_BUFFET_DESPAWN_PERIODIC
  | SPELL_DESPAWN_BUFFET
  deriving DecidableEq, Repr

/-- Numeric id of a spell, the values of `enum Spells`. -/
def Spells.Id : Spells → Nat
  | .SPELL_FROST_AURA => 28531
  | .SPELL_CLEAVE => 19983
  | .SPELL_TAIL_SWEEP => 55697
  | .SPELL_SUMMON_BLIZZARD => 28560
  | .SPELL_LIFE_DRAIN => 28542
  | .SPELL_ICEBOLT => 28522
  | .SPELL_FROST_BREATH_ANTICHEAT => 29318
  | .SPELL_FROST_BREATH => 28524
  | .SPELL_FROST_MISSILE => 30101
  | .SPELL_BERSERK => 26662
  | .SPELL_DIES => 29357
  | .SPELL_CHECK_RESISTS => 60539
  | .SPELL_SUMMON_WING_BUFFET => 29329
  | .SPELL_WING_BUFFET_PERIODIC => 29327
  | .SPELL_WING_BUFFET_DESPAWN_PERIODIC => 29330
  | .SPELL_DESPAWN_BUFFET => 29336

/-- Encounter phases, `enum Phases`. -/
inductive Phases
  | PHASE_BIRTH
  | PHASE_GROUND
  | PHASE_FLIGHT
  deriving DecidableEq, Repr

/-- Scheduled action kinds, `enum Events`. -/
inductive Events
  | EVENT_BERSERK
  | EVENT_CLEAVE
  | EVENT_TAIL
  | EVENT_DRAIN
  | EVENT_BLIZZARD
  | EVENT_FLIGHT
  | EVENT_LIFTOFF
  | EVENT_ICEBOLT
  | EVENT_BREATH
  | EVENT_EXPLOSION
  | EVENT_LAND
  | EVENT_GROUND
  | EVENT_BIRTH
  | EVENT_CHECK_RESISTS
  deriving DecidableEq, Repr

/-- Entry of the blizzard helper creature, `NPC_BLIZZARD`. -/
def NPC_BLIZZARD : Nat := 16474

/-- Entry of the ice block game object, `GO_ICEBLOCK`. -/
def GO_ICEBLOCK : Nat := 181247

/-- Data key of the achievement flag, `DATA_THE_HUNDRED_CLUB`. -/
def DATA_THE_HUNDRED_CLUB : Nat := 21462147

/-- Resistance cap of the achievement, `MAX_FROST_RESISTANCE`. -/
def MAX_FROST_RESISTANCE : Int := 100

/-- Action parameter of the birth signal, `ACTION_BIRTH`. -/
def ACTION_BIRTH : Int := 1

/-- Data key of the blizzard target handshake, `DATA_BLIZZARD_TARGET` (the enumerator after
`ACTION_BIRTH = 1`). -/
def DATA_BLIZZARD_TARGET : Int := 2

/-- Reaction states of a creature, as used through `SetReactState`. -/
inductive ReactStates
  | REACT_PASSIVE
  | REACT_DEFENSIVE
  | REACT_AGGRESSIVE
  deriving DecidableEq, Repr

/-- Object identifiers.  `high = 0` with zero entry and counter is `ObjectGuid::Empty`. -/
structure ObjectGuid where
  high : Nat
  entry : Nat
  counter : Nat
  deriving DecidableEq, Repr

/-- The empty identifier, `ObjectGuid::Empty`. -/
def ObjectGuid.Empty : ObjectGuid := ⟨0, 0, 0⟩

/-- Emptiness test, `ObjectGuid::IsEmpty`. -/
def ObjectGuid.IsEmpty (g : ObjectGuid) : Bool := g == ObjectGuid.Empty

/-- Entry part of an identifier, `ObjectGuid::GetEntry`. -/
def ObjectGuid.GetEntry (g : ObjectGuid) : Nat := g.entry

/-! ## The scheduler (`EventMap`) -/

/-- Modelled from the spec: a Scheduled Action of the timer queue (the `EventMap` class is not
among the sources): an action-kind identifier, a remaining delay and an optional phase tag
(absent = valid in any phase). -/
structure ScheduledAction where
  id : Events
  delay : Nat
  tag : Option Phases
  deriving DecidableEq, Repr

/-- Modelled from the spec: the Scheduler of section 4.1 (class `EventMap`, not among the
sources): the phase register (`none` before combat starts), the pending actions in insertion
order, and the action popped last (what `Repeat` re-enqueues). -/
structure EventMap where
  phase : Option Phases
  queue : List ScheduledAction
  lastEvent : Option ScheduledAction
  deriving DecidableEq, Repr

namespace EventMap

/-- Modelled from the spec: `isInPhase(phase)`, a pure query of the phase register. -/
def IsInPhase (em : EventMap) (p : Phases) : Bool := em.phase == some p

/-- Modelled from the spec: `setPhase(newPhase)` sets the active phase and does not cancel or
reschedule anything. -/
def SetPhase (em : EventMap) (p : Phases) : EventMap := { em with phase := some p }

/-- Modelled from the spec: `schedule(actionId, delay, phaseTag?)` inserts an action due after
`delay`; there is no uniqueness constraint. -/
def ScheduleEvent (em : EventMap) (id : Events) (time : Nat) (tag : Option Phases) : EventMap :=
  { em with queue := em.queue ++ [⟨id, time, tag⟩] }

/-- Modelled from the spec: the remaining delay of one action after `diff` milliseconds; a
delay "never goes negative". -/
def elapse (diff : Nat) (a : ScheduledAction) : ScheduledAction :=
  { a with delay := a.delay - diff }

/-- Modelled from the spec: `update(elapsedTime)` decrements all pending delays (never below
zero) and executes nothing. -/
def Update (em : EventMap) (diff : Nat) : EventMap :=
  { em with queue := em.queue.map (elapse diff) }

/-- Modelled from the spec: an action is eligible when its phase tag is absent or equals the
currently active phase. -/
def eligible (phase : Option Phases) (a : ScheduledAction) : Bool :=
  match a.tag with
  | none => true
  | some q => phase == some q

/-- Modelled from the spec: `popDue` on the queue: the first action, in insertion order, whose
delay has reached zero and which is eligible; due actions of another phase stay queued. -/
def popDue (phase : Option Phases) :
    List ScheduledAction → Option (ScheduledAction × List ScheduledAction)
  | [] => none
  | a :: rest =>
    if a.delay = 0 ∧ eligible phase a = true then some (a, rest)
    else
      match popDue phase rest with
      | none => none
      | some (b, rest') => some (b, a :: rest')

/-- Modelled from the spec: `popDue(phaseFilter)` as the script uses it
(`EventMap::ExecuteEvent`): returns at most one due, eligible action and removes it, or returns
`none` (the `0` of the source) and leaves the scheduler alone. -/
def ExecuteEvent (em : EventMap) : Option Events × EventMap :=
  match popDue em.phase em.queue with
  | none => (none, em)
  | some (a, rest) => (some a.id, { em with queue := rest, lastEvent := some a })

/-- Modelled from the spec: `repeat(delay)` reinserts an action with the identifier and phase
tag of the action just popped, with a new delay. -/
def Repeat (em : EventMap) (time : Nat) : EventMap :=
  match em.lastEvent with
  | none => em
  | some a => { em with queue := em.queue ++ [⟨a.id, time, a.tag⟩] }

/-- Number of queued actions of kind `id`. -/
def pending (em : EventMap) (id : Events) : Nat := em.queue.countP (fun a => a.id == id)

end EventMap

/-! ## Engine inputs and outputs -/

/-- Modelled from the spec: a "jittered random delay drawn from a fixed range" (`randtime`,
not among the sources): the raw draw `r` is reduced into the closed range `[lo, hi]`. -/
def randtime (lo hi r : Nat) : Nat := lo + r % (hi - lo + 1)

/-- Modelled from the spec: `isAboveHealthFraction(pct)` (`Unit::HealthAbovePct`, not among the
sources): health strictly above `pct` percent of the maximum. -/
def HealthAbovePct (health maxHealth pct : Nat) : Bool := decide (pct * maxHealth < health * 100)

/-- The part of the controlled creature (`me`) that the script reads and writes. -/
structure Creature where
  health : Nat
  maxHealth : Nat
  reactState : ReactStates
  hover : Bool
  visible : Bool
  nonAttackable : Bool
  deriving DecidableEq, Repr

/-- Whom a cast is aimed at: the caster (`DoCastSelf`, `DoCast(me, ..)`), the current victim
(`DoCastVictim`), nobody in particular (`DoCastAOE`), or a given unit. -/
inductive CastTarget
  | Self
  | Victim
  | AOE
  | Unit (guid : ObjectGuid)
  deriving DecidableEq, Repr

/-- Orders the script gives to the engine, in the order it gives them. -/
inductive Effect
  | BossJustEngagedWith
  | CastSpell (spell : Spells) (target : CastTarget)
  | Talk (line : Yells)
  | AttackStop
  | MovePoint (id : Nat)
  | EmoteLiftoff
  | EmoteLand
  | RemoveAurasOnPlayers (spell : Spells)
  | DoMeleeAttackIfReady
  deriving DecidableEq, Repr

/-- What one call of the script reads from the engine. -/
structure Env where
  /-- result of `UpdateVictim()` -/
  updateVictim : Bool
  /-- `RAID_MODE` selects its second argument (25-player difficulty) -/
  raid25 : Bool
  /-- raw random draws, by position of the `randtime` call within the handler -/
  rand : Nat → Nat
  /-- what `SelectTargetList` hands back at liftoff -/
  selected : List ObjectGuid
  /-- `ObjectAccessor::GetPlayer` finds the player and the player is alive -/
  alivePlayer : ObjectGuid → Bool

/-- `RAID_MODE(a, b)`: the first argument in 10-player, the second in 25-player mode. -/
def RAID_MODE {α : Type} (env : Env) (a b : α) : α := if env.raid25 then b else a

/-! ## The boss controller -/

/-- The state of `struct boss_sapphiron`: the creature, the scheduler and the private
members. -/
structure boss_sapphiron where
  me : Creature
  events : EventMap
  _iceboltTargets : List ObjectGuid
  _delayedDrain : Bool
  _canTheHundredClub : Bool
  deriving DecidableEq, Repr

namespace boss_sapphiron

/-- `DamageTaken`: returns the state (untouched) and the damage left in the reference
parameter; `damage` is a `uint32`, so `GetHealth() - 1` wraps modulo `2 ^ 32`. -/
def DamageTaken (s : boss_sapphiron) (damage : Nat) : boss_sapphiron × Nat :=
  if damage < s.me.health ∨ !s.events.IsInPhase .PHASE_FLIGHT then (s, damage)
  else (s, (s.me.health + 4294967296 - 1) % 4294967296)

/-- `GetData`: the achievement flag under its key, `0` under every other key. -/
def GetData (s : boss_sapphiron) (data : Nat) : Nat :=
  if data = DATA_THE_HUNDRED_CLUB then (if s._canTheHundredClub then 1 else 0) else 0

/-- `SpellHitTarget`: `resistance` is `none` when the target is not a unit
(`target->ToUnit()` is null), else the frost resistance of the unit hit. -/
def SpellHitTarget (s : boss_sapphiron) (resistance : Option Int) (spellId : Nat) :
    boss_sapphiron :=
  match resistance with
  | none => s
  | some r =>
    if spellId = Spells.SPELL_CHECK_RESISTS.Id then
      if r > MAX_FROST_RESISTANCE then { s with _canTheHundredClub := false } else s
    else s

/-- `MovementInform`: arrival at point `1` schedules the liftoff. -/
def MovementInform (s : boss_sapphiron) (_type id : Nat) : boss_sapphiron :=
  if id = 1 then
    { s with events := s.events.ScheduleEvent .EVENT_LIFTOFF 0 (some .PHASE_FLIGHT) }
  else s

/-- `DoAction`: the birth signal enters the Birth phase and schedules the reveal. -/
def DoAction (s : boss_sapphiron) (param : Int) : boss_sapphiron :=
  if param = ACTION_BIRTH then
    { s with events := (s.events.SetPhase .PHASE_BIRTH).ScheduleEvent .EVENT_BIRTH 23000 none }
  else s

/-- `EnterPhaseGround`: the three Ground cadences on every entry, the life drain and the
48.5 s flight deadline on the initial entry, the 60 s flight deadline on a repeat entry. -/
def EnterPhaseGround (s : boss_sapphiron) (env : Env) (initial : Bool) : boss_sapphiron :=
  let me1 := { s.me with reactState := ReactStates.REACT_AGGRESSIVE }
  let e1 := s.events.ScheduleEvent .EVENT_CLEAVE (randtime 5000 15000 (env.rand 0))
    (some .PHASE_GROUND)
  let e2 := e1.ScheduleEvent .EVENT_TAIL (randtime 7000 10000 (env.rand 1)) (some .PHASE_GROUND)
  let e3 := e2.ScheduleEvent .EVENT_BLIZZARD (randtime 5000 10000 (env.rand 2))
    (some .PHASE_GROUND)
  if initial then
    let e4 := e3.ScheduleEvent .EVENT_DRAIN (randtime 22000 28000 (env.rand 3)) none
    { s with me := me1, events := e4.ScheduleEvent .EVENT_FLIGHT 48500 (some .PHASE_GROUND) }
  else
    { s with me := me1, events := e3.ScheduleEvent .EVENT_FLIGHT 60000 (some .PHASE_GROUND) }

/-- `CastDrain`: cast life drain and schedule the next one. -/
def CastDrain (s : boss_sapphiron) (env : Env) : boss_sapphiron × List Effect :=
  let em := s.events.ScheduleEvent .EVENT_DRAIN (randtime 22000 28000 (env.rand 0)) none
  ({ s with events := em }, [Effect.CastSpell .SPELL_LIFE_DRAIN .AOE])

/-- `JustEngagedWith`: the base class call, the frost aura, the Ground phase and the initial
schedule. -/
def JustEngagedWith (s : boss_sapphiron) (env : Env) : boss_sapphiron × List Effect :=
  let e1 := s.events.SetPhase .PHASE_GROUND
  let e2 := e1.ScheduleEvent .EVENT_CHECK_RESISTS 0 none
  let e3 := e2.ScheduleEvent .EVENT_BERSERK 900000 none
  (EnterPhaseGround { s with events := e3 } env true,
   [Effect.BossJustEngagedWith, Effect.CastSpell .SPELL_FROST_AURA .Self])

/-- What one call of `UpdateAI` leaves behind: the new state, the orders given, and the
non-zero values `events.ExecuteEvent()` returned during the call, in order. -/
structure Outcome where
  state : boss_sapphiron
  effects : List Effect
  executed : List Events
  deriving DecidableEq, Repr

/-- How a `case` of a switch ends: with `return` (the call is over) or with `break` (control
goes back to the enclosing loop or falls out of the `if`). -/
inductive SwitchResult
  | Return (s : boss_sapphiron) (eff : List Effect)
  | Break (s : boss_sapphiron) (eff : List Effect)
  deriving DecidableEq, Repr

/-- The switch of the Ground branch of `UpdateAI`, entered with the state as `ExecuteEvent`
left it.  An identifier without a case falls through the switch like a `break`. -/
def groundCase (env : Env) (id : Events) (s : boss_sapphiron) : SwitchResult :=
  match id with
  | .EVENT_CHECK_RESISTS =>
    .Return { s with events := s.events.Repeat 30000 }
      [Effect.CastSpell .SPELL_CHECK_RESISTS .Self]
  | .EVENT_GROUND => .Return (EnterPhaseGround s env false) []
  | .EVENT_BERSERK =>
    .Return s [Effect.Talk .EMOTE_ENRAGE, Effect.CastSpell .SPELL_BERSERK .Self]
  | .EVENT_CLEAVE =>
    let em := s.events.ScheduleEvent .EVENT_CLEAVE (randtime 5000 15000 (env.rand 0))
      (some .PHASE_GROUND)
    .Return { s with events := em } [Effect.CastSpell .SPELL_CLEAVE .Victim]
  | .EVENT_TAIL =>
    let em := s.events.ScheduleEvent .EVENT_TAIL (randtime 7000 10000 (env.rand 0))
      (some .PHASE_GROUND)
    .Return { s with events := em } [Effect.CastSpell .SPELL_TAIL_SWEEP .AOE]
  | .EVENT_DRAIN => .Return (CastDrain s env).1 (CastDrain s env).2
  | .EVENT_BLIZZARD =>
    let em := s.events.ScheduleEvent .EVENT_BLIZZARD (RAID_MODE env 20000 7000)
      (some .PHASE_GROUND)
    .Break { s with events := em } [Effect.CastSpell .SPELL_SUMMON_BLIZZARD .AOE]
  | .EVENT_FLIGHT =>
    if HealthAbovePct s.me.health s.me.maxHealth 10 then
      .Return { s with
                _delayedDrain := false,
                events := s.events.SetPhase .PHASE_FLIGHT,
                me := { s.me with reactState := .REACT_PASSIVE } }
        [Effect.AttackStop, Effect.MovePoint 1]
    else .Break s []
  | _ => .Break s []

/-- The Ground branch of `UpdateAI`: `while (uint32 eventId = events.ExecuteEvent())` around
the switch.  A `return` ends the call, a `break` goes round the loop again; when nothing is due
any more the call ends with `DoMeleeAttackIfReady()`.  `none` means the fuel ran out. -/
def groundLoop (env : Env) :
    Nat → boss_sapphiron → List Effect → List Events → Option Outcome
  | 0, _, _, _ => none
  | fuel + 1, s, eff, ex =>
    match s.events.ExecuteEvent with
    | (none, em) => some ⟨{ s with events := em }, eff ++ [Effect.DoMeleeAttackIfReady], ex⟩
    | (some id, em) =>
      match groundCase env id { s with events := em } with
      | .Return s2 e => some ⟨s2, eff ++ e, ex ++ [id]⟩
      | .Break s2 e => groundLoop env fuel s2 (eff ++ e) (ex ++ [id])

/-- The switch of the other branch of `UpdateAI` (Birth, Flight, or no phase), entered with the
state as `ExecuteEvent` left it. -/
def airCase (env : Env) (id : Events) (s : boss_sapphiron) : SwitchResult :=
  match id with
  | .EVENT_CHECK_RESISTS =>
    .Return { s with events := s.events.Repeat 30000 }
      [Effect.CastSpell .SPELL_CHECK_RESISTS .Self]
  | .EVENT_LIFTOFF =>
    .Return { s with
              me := { s.me with hover := true },
              events := s.events.ScheduleEvent .EVENT_ICEBOLT 7000 (some .PHASE_FLIGHT),
              _iceboltTargets := env.selected.take (RAID_MODE env 2 3) }
      [Effect.Talk .EMOTE_AIR_PHASE, Effect.CastSpell .SPELL_SUMMON_WING_BUFFET .Self,
        Effect.EmoteLiftoff]
  | .EVENT_ICEBOLT =>
    match s._iceboltTargets.getLast? with
    | none =>
      .Return { s with events := s.events.ScheduleEvent .EVENT_BREATH 2000 (some .PHASE_FLIGHT) }
        []
    | some target =>
      let eff := if env.alivePlayer target
        then [Effect.CastSpell .SPELL_ICEBOLT (.Unit target)] else []
      let rest := s._iceboltTargets.dropLast
      if rest.isEmpty then
        let em := s.events.ScheduleEvent .EVENT_BREATH 2000 (some .PHASE_FLIGHT)
        .Return { s with _iceboltTargets := rest, events := em } eff
      else
        .Return { s with _iceboltTargets := rest, events := s.events.Repeat 3000 } eff
  | .EVENT_BREATH =>
    .Return { s with events := s.events.ScheduleEvent .EVENT_EXPLOSION 8000 (some .PHASE_FLIGHT) }
      [Effect.Talk .EMOTE_BREATH, Effect.CastSpell .SPELL_FROST_MISSILE .AOE]
  | .EVENT_EXPLOSION =>
    .Return { s with events := s.events.ScheduleEvent .EVENT_LAND 3500 (some .PHASE_FLIGHT) }
      [Effect.CastSpell .SPELL_FROST_BREATH .AOE,
        Effect.CastSpell .SPELL_FROST_BREATH_ANTICHEAT .AOE,
        Effect.RemoveAurasOnPlayers .SPELL_ICEBOLT]
  | .EVENT_LAND =>
    let d := if s._delayedDrain then CastDrain s env else (s, [])
    let em := (d.1.events.SetPhase .PHASE_GROUND).ScheduleEvent .EVENT_GROUND 3500
      (some .PHASE_GROUND)
    .Return { d.1 with me := { d.1.me with hover := false }, events := em }
      ([Effect.CastSpell .SPELL_DESPAWN_BUFFET .Self] ++ d.2
        ++ [Effect.EmoteLand, Effect.Talk .EMOTE_GROUND_PHASE])
  | .EVENT_BIRTH =>
    let me1 := { s.me with visible := true, nonAttackable := false,
                           reactState := ReactStates.REACT_AGGRESSIVE }
    .Return { s with me := me1 } []
  | .EVENT_DRAIN => .Break { s with _delayedDrain := true } []
  | _ => .Break s []

/-- The other branch of `UpdateAI`: `if (uint32 eventId = events.ExecuteEvent())` around its
switch; at most one action is popped, and `return` and `break` both end the call. -/
def airStep (env : Env) (s : boss_sapphiron) : Outcome :=
  match s.events.ExecuteEvent with
  | (none, em) => ⟨{ s with events := em }, [], []⟩
  | (some id, em) =>
    match airCase env id { s with events := em } with
    | .Return s2 e => ⟨s2, e, [id]⟩
    | .Break s2 e => ⟨s2, e, [id]⟩

/-- `UpdateAI`: advance the scheduler, leave when there is no victim outside Birth, then run
the branch of the current phase.  The Ground loop pops one due action per round and only adds
actions that are not due, so one more round than there are queued actions is enough fuel. -/
def UpdateAI (s : boss_sapphiron) (diff : Nat) (env : Env) : Option Outcome :=
  let s1 := { s with events := s.events.Update diff }
  if !s1.events.IsInPhase .PHASE_BIRTH && !env.updateVictim then some ⟨s1, [], []⟩
  else if s1.events.IsInPhase .PHASE_GROUND then
    groundLoop env (s1.events.queue.length + 1) s1 [] []
  else some (airStep env s1)

/-- State a case of a switch leaves behind. -/
def SwitchResult.state : SwitchResult → boss_sapphiron
  | .Return s _ => s
  | .Break s _ => s

/-- Orders a case of a switch gives. -/
def SwitchResult.effects : SwitchResult → List Effect
  | .Return _ e => e
  | .Break _ e => e

/-- The entry points of the script the engine calls during an encounter, with what each call
reads from the engine.  `Engine` stands for the engine changing the creature between two calls
(damage dealt, healing). -/
inductive Call
  | JustEngagedWith (env : Env)
  | UpdateAI (diff : Nat) (env : Env)
  | DamageTaken (damage : Nat)
  | SpellHitTarget (resistance : Option Int) (spellId : Nat)
  | MovementInform (type id : Nat)
  | DoAction (param : Int)
  | Engine (me : Creature)

/-- One call into the script. -/
def call (s : boss_sapphiron) : Call → Option Outcome
  | .JustEngagedWith env => some ⟨(s.JustEngagedWith env).1, (s.JustEngagedWith env).2, []⟩
  | .UpdateAI diff env => s.UpdateAI diff env
  | .DamageTaken damage => some ⟨(s.DamageTaken damage).1, [], []⟩
  | .SpellHitTarget resistance spellId => some ⟨s.SpellHitTarget resistance spellId, [], []⟩
  | .MovementInform type id => some ⟨s.MovementInform type id, [], []⟩
  | .DoAction param => some ⟨s.DoAction param, [], []⟩
  | .Engine me => some ⟨{ s with me := me }, [], []⟩

/-- Whether a call is the engage call, the only one that schedules the berserk. -/
def Call.engages : Call → Bool
  | .JustEngagedWith _ => true
  | _ => false

/-- A sequence of calls: the final state and the outcome of every call, in order. -/
def runCalls : boss_sapphiron → List Call → Option (boss_sapphiron × List Outcome)
  | s, [] => some (s, [])
  | s, c :: cs =>
    match call s c with
    | none => none
    | some out =>
      match runCalls out.state cs with
      | none => none
      | some (fin, outs) => some (fin, out :: outs)

/-- The states of an encounter: the controller as its constructor leaves it (`Initialize`, an
empty scheduler, no targets), and every state a call leads to from there. -/
inductive Reachable : boss_sapphiron → Prop
  | fresh (me : Creature) : Reachable ⟨me, ⟨none, [], none⟩, [], false, true⟩
  | step (s : boss_sapphiron) (c : Call) (out : Outcome) :
      Reachable s → call s c = some out → Reachable out.state

/-- An update that deferred a life drain: the drain action was executed and no life drain was
cast. -/
def isDeferral (o : Outcome) : Bool :=
  decide (Events.EVENT_DRAIN ∈ o.executed) &&
    !decide (Effect.CastSpell .SPELL_LIFE_DRAIN .AOE ∈ o.effects)

/-- An update that landed and cast life drain while landing. -/
def isLandCast (o : Outcome) : Bool :=
  decide (o.executed = [Events.EVENT_LAND]) &&
    decide (Effect.CastSpell .SPELL_LIFE_DRAIN .AOE ∈ o.effects)

end boss_sapphiron

/-- The phase tag every `ScheduleEvent` call of the script gives to an action of kind `id`. -/
def expectedTag : Events → Option Phases
  | .EVENT_CLEAVE | .EVENT_TAIL | .EVENT_BLIZZARD | .EVENT_FLIGHT | .EVENT_GROUND =>
    some .PHASE_GROUND
  | .EVENT_LIFTOFF | .EVENT_ICEBOLT | .EVENT_BREATH | .EVENT_EXPLOSION | .EVENT_LAND =>
    some .PHASE_FLIGHT
  | .EVENT_BERSERK | .EVENT_DRAIN | .EVENT_BIRTH | .EVENT_CHECK_RESISTS => none

/-- Every queued action carries the tag the script schedules its kind with. -/
def WellTagged (em : EventMap) : Prop := ∀ a ∈ em.queue, a.tag = expectedTag a.id

instance (em : EventMap) : Decidable (WellTagged em) := by
  unfold WellTagged
  infer_instance

/-- The state of `struct npc_sapphiron_blizzard`: the followed target. -/
structure npc_sapphiron_blizzard where
  _targetGuid : ObjectGuid
  deriving DecidableEq, Repr

namespace npc_sapphiron_blizzard

/-- `npc_sapphiron_blizzard::GetGUID`. -/
def GetGUID (b : npc_sapphiron_blizzard) (data : Int) : ObjectGuid :=
  if data = DATA_BLIZZARD_TARGET then b._targetGuid else ObjectGuid.Empty

/-- `npc_sapphiron_blizzard::SetGUID`. -/
def SetGUID (b : npc_sapphiron_blizzard) (guid : ObjectGuid) (id : Int) : npc_sapphiron_blizzard :=
  if id = DATA_BLIZZARD_TARGET then { b with _targetGuid := guid } else b

end npc_sapphiron_blizzard

/-- A unit as the blizzard scripts see it: its identifier, whether it is a player
(`GetTypeId() == TYPEID_PLAYER`), and its blizzard script when it is a blizzard (a creature of
entry `NPC_BLIZZARD`). -/
structure WorldUnit where
  guid : ObjectGuid
  isPlayer : Bool
  blizzardAI : npc_sapphiron_blizzard
  deriving DecidableEq, Repr

/-- A live blizzard: a unit of entry `NPC_BLIZZARD`, which runs `npc_sapphiron_blizzard`. -/
def WorldUnit.isBlizzard (u : WorldUnit) : Bool := u.guid.GetEntry == NPC_BLIZZARD

/-- What `unit->GetAI()->GetGUID(data)` returns: the answer of the blizzard script for a
blizzard, `ObjectGuid::Empty` (the default of the base class) for any other unit. -/
def WorldUnit.GetGUID (u : WorldUnit) (data : Int) : ObjectGuid :=
  if u.isBlizzard then u.blizzardAI.GetGUID data else ObjectGuid.Empty

/-- What `unit->GetAI()->SetGUID(guid, id)` does: the blizzard script stores it, the base
class of any other unit ignores it. -/
def WorldUnit.SetGUID (u : WorldUnit) (guid : ObjectGuid) (id : Int) : WorldUnit :=
  if u.isBlizzard then { u with blizzardAI := u.blizzardAI.SetGUID guid id } else u

/-- The world around the boss: the live units, the boss's summon list and the units on its
threat list, most threatening first. -/
structure World where
  units : List WorldUnit
  summons : List ObjectGuid
  threat : List WorldUnit
  deriving DecidableEq, Repr

/-- `ObjectAccessor::GetUnit`: the live unit with this identifier, if there is one. -/
def World.GetUnit (w : World) (guid : ObjectGuid) : Option WorldUnit :=
  w.units.find? (fun u => u.guid == guid)

/-- `BlizzardTargetSelector::operator()`: a player that is the target of none of the given
blizzards. -/
def BlizzardTargetSelector (blizzards : List WorldUnit) (unit : WorldUnit) : Bool :=
  if !unit.isPlayer then false
  else if blizzards.any (fun blizzard => blizzard.GetGUID DATA_BLIZZARD_TARGET == unit.guid)
    then false
  else true

/-- Modelled from the spec: `selectRandomEligible(count, filterPredicate)` for one target
(`SelectTarget(SelectTargetMethod::Random, offset, predicate)`, not among the sources): skip
the first `offset` units of the threat list, keep the eligible ones, pick one at random. -/
def SelectTarget (threat : List WorldUnit) (offset : Nat) (predicate : WorldUnit → Bool)
    (r : Nat) : Option WorldUnit :=
  ((threat.drop offset).filter predicate)[r % ((threat.drop offset).filter predicate).length]?

/-- `boss_sapphiron::GetGUID`: under `DATA_BLIZZARD_TARGET`, a random player on the threat list
(the first one skipped) whom no live blizzard of the summon list targets; else
`ObjectGuid::Empty`.  `r` is the random draw of the selection. -/
def boss_sapphiron.GetGUID (w : World) (data : Int) (r : Nat) : ObjectGuid :=
  if data = DATA_BLIZZARD_TARGET then
    let blizzards := w.summons.filterMap fun summonGuid =>
      if summonGuid.GetEntry = NPC_BLIZZARD then w.GetUnit summonGuid else none
    match SelectTarget w.threat 1 (BlizzardTargetSelector blizzards) r with
    | some newTarget => newTarget.guid
    | none => ObjectGuid.Empty
  else ObjectGuid.Empty

/-- The unit `guid` gets `SetGUID(target, DATA_BLIZZARD_TARGET)`. -/
def World.SetTarget (w : World) (guid target : ObjectGuid) : World :=
  { w with units := w.units.map fun u =>
      if u.guid = guid then u.SetGUID target DATA_BLIZZARD_TARGET else u }

/-- What a blizzard is told to do after retargeting. -/
inductive BlizzardOrder
  | MoveFollow (target : ObjectGuid)
  | Stop
  | Nothing
  deriving DecidableEq, Repr

/-- `spell_sapphiron_change_blizzard_target::HandlePeriodic` on the aura bearer `me`.
`hasOwner` says that `me` is a temporary summon whose summoner, the boss, is still there. -/
def spell_sapphiron_change_blizzard_target.HandlePeriodic (w : World) (me : ObjectGuid)
    (hasOwner : Bool) (r : Nat) : World × BlizzardOrder :=
  if hasOwner then
    let w1 := w.SetTarget me ObjectGuid.Empty
    match w1.GetUnit (boss_sapphiron.GetGUID w1 DATA_BLIZZARD_TARGET r) with
    | some newTarget => (w1.SetTarget me newTarget.guid, .MoveFollow newTarget.guid)
    | none => (w1, .Stop)
  else (w, .Nothing)

/-- `spell_sapphiron_summon_blizzard::HandleDummy`.  `target` is the unit hit, if any;
`summoned` is the blizzard `SummonCreature` created, if it did, which enters the world with an
empty target; `registered` says whether the boss has put it on its summon list by then
(`JustSummoned` of the base class, not among the sources); `casterIsCreature` is
`GetCaster()->ToCreature()`, the boss. -/
def spell_sapphiron_summon_blizzard.HandleDummy (w : World) (target : Option ObjectGuid)
    (summoned : Option ObjectGuid) (registered casterIsCreature : Bool) (r : Nat) :
    World × BlizzardOrder :=
  match target with
  | none => (w, .Nothing)
  | some target =>
    match summoned with
    | none => (w, .Nothing)
    | some blizzard =>
      let w0 : World :=
        { w with
          units := w.units ++ [⟨blizzard, false, ⟨ObjectGuid.Empty⟩⟩],
          summons := if registered then w.summons ++ [blizzard] else w.summons }
      if casterIsCreature then
        let w1 := w0.SetTarget blizzard ObjectGuid.Empty
        match w1.GetUnit (boss_sapphiron.GetGUID w1 DATA_BLIZZARD_TARGET r) with
        | some newTarget => (w1.SetTarget blizzard newTarget.guid, .MoveFollow newTarget.guid)
        | none => (w1, .MoveFollow target)
      else (w0, .MoveFollow target)

/-- No two live blizzards hold the same non-empty target. -/
def Exclusive (w : World) : Prop :=
  ∀ u ∈ w.units, ∀ v ∈ w.units, u.isBlizzard = true → v.isBlizzard = true → u.guid ≠ v.guid →
    u.GetGUID DATA_BLIZZARD_TARGET ≠ ObjectGuid.Empty →
    u.GetGUID DATA_BLIZZARD_TARGET ≠ v.GetGUID DATA_BLIZZARD_TARGET

instance (w : World) : Decidable (Exclusive w) := by
  unfold Exclusive
  infer_instance

/-- All live blizzards are in the boss's summon list. -/
def AllSummoned (w : World) : Prop :=
  ∀ u ∈ w.units, u.isBlizzard = true → u.guid ∈ w.summons

instance (w : World) : Decidable (AllSummoned w) := by
  unfold AllSummoned
  infer_instance

/-- Live units have distinct identifiers. -/
def UniqueGuids (w : World) : Prop := (w.units.map (·.guid)).Nodup

instance (w : World) : Decidable (UniqueGuids w) := by
  unfold UniqueGuids
  infer_instance

/-! ## Ice blocks -/

/-- The state of `class spell_sapphiron_icebolt`: the recorded ice block. -/
structure spell_sapphiron_icebolt where
  _block : ObjectGuid
  deriving DecidableEq, Repr

/-- What one periodic tick reads from the engine: whether the bearer is moving, and what
`SummonGameObject` would hand back (`none` for a null pointer). -/
structure IceboltTick where
  moving : Bool
  summoned : Option ObjectGuid
  deriving DecidableEq, Repr

namespace spell_sapphiron_icebolt

/-- `spell_sapphiron_icebolt::HandlePeriodic`: the new script state, and the ice block created
by this tick, if any. -/
def HandlePeriodic (a : spell_sapphiron_icebolt) (t : IceboltTick) :
    spell_sapphiron_icebolt × Option ObjectGuid :=
  if !a._block.IsEmpty then (a, none)
  else if t.moving then (a, none)
  else
    match t.summoned with
    | some block => ({ a with _block := block }, some block)
    | none => (a, none)

/-- `spell_sapphiron_icebolt::HandleRemove`: the recorded block, if there is one and it is
found (`found`), is deleted; the result is the identifier of the deleted object. -/
def HandleRemove (a : spell_sapphiron_icebolt) (found : Bool) : Option ObjectGuid :=
  if !a._block.IsEmpty then (if found then some a._block else none) else none

/-- The periodic ticks of one application, in order: the final script state and the ice blocks
created. -/
def runTicks : spell_sapphiron_icebolt → List IceboltTick →
    spell_sapphiron_icebolt × List ObjectGuid
  | a, [] => (a, [])
  | a, t :: ts =>
    let r := a.HandlePeriodic t
    let rest := runTicks r.1 ts
    (rest.1, (match r.2 with | some g => [g] | none => []) ++ rest.2)

end spell_sapphiron_icebolt

/-! ## Sample inputs -/

/-- A player identifier. -/
def playerGuid (n : Nat) : ObjectGuid := ⟨1, 0, n⟩

/-- An engine that reports a victim, 10-player mode, always draws `0`, selects players 1 to 3
at liftoff and finds every player alive. -/
def sampleEnv : Env :=
  ⟨true, false, fun _ => 0, [playerGuid 1, playerGuid 2, playerGuid 3], fun _ => true⟩

/-- The creature with the given health out of 1000. -/
def sampleCreature (health : Nat) : Creature :=
  ⟨health, 1000, .REACT_AGGRESSIVE, false, true, false⟩

/-- The controller as the constructor leaves it (`Initialize`), before any scheduling. -/
def freshBoss (health : Nat) : boss_sapphiron :=
  ⟨sampleCreature health, ⟨none, [], none⟩, [], false, true⟩

/-- In Flight at 500 health. -/
def flightBoss : boss_sapphiron :=
  ⟨sampleCreature 500, ⟨some .PHASE_FLIGHT, [], none⟩, [], false, true⟩

/-- Engaged from the fresh state at full health. -/
def engagedBoss : boss_sapphiron := ((freshBoss 1000).JustEngagedWith sampleEnv).1

/-- In Flight with a life drain due in 1 s and the landing due in 2 s. -/
def drainBoss : boss_sapphiron :=
  ⟨sampleCreature 500,
    ⟨some .PHASE_FLIGHT,
      [⟨.EVENT_DRAIN, 1000, none⟩, ⟨.EVENT_LAND, 2000, some .PHASE_FLIGHT⟩], none⟩,
    [], false, true⟩

/-- The state `drainBoss` is in after the drain came due and was deferred. -/
def deferredBoss : boss_sapphiron :=
  ⟨sampleCreature 500,
    ⟨some .PHASE_FLIGHT, [⟨.EVENT_LAND, 1000, some .PHASE_FLIGHT⟩],
      some ⟨.EVENT_DRAIN, 0, none⟩⟩,
    [], true, true⟩

/-- The calls of a short encounter: engage, then updates after 0 s, 5 s, 2 s and 3 s. -/
def busyCalls : List boss_sapphiron.Call :=
  [.JustEngagedWith sampleEnv, .UpdateAI 0 sampleEnv, .UpdateAI 5000 sampleEnv,
   .UpdateAI 2000 sampleEnv, .UpdateAI 3000 sampleEnv]

/-- The state 7 s into the encounter `busyCalls`, before its last update. -/
def busyBoss : boss_sapphiron :=
  ((boss_sapphiron.runCalls (freshBoss 1000) busyCalls.dropLast).map (·.1)).getD (freshBoss 1000)

/-- The first blizzard of `sampleWorld`. -/
def blizzardGuid (n : Nat) : ObjectGuid := ⟨2, NPC_BLIZZARD, n⟩

/-- A world with a tank and two more players on the threat list, and one live blizzard, on the
summon list, that follows the second player. -/
def sampleWorld : World :=
  { units := [⟨playerGuid 1, true, ⟨ObjectGuid.Empty⟩⟩, ⟨playerGuid 2, true, ⟨ObjectGuid.Empty⟩⟩,
              ⟨playerGuid 3, true, ⟨ObjectGuid.Empty⟩⟩, ⟨blizzardGuid 1, false, ⟨playerGuid 2⟩⟩],
    summons := [blizzardGuid 1],
    threat := [⟨playerGuid 1, true, ⟨ObjectGuid.Empty⟩⟩, ⟨playerGuid 2, true, ⟨ObjectGuid.Empty⟩⟩,
               ⟨playerGuid 3, true, ⟨ObjectGuid.Empty⟩⟩] }

/-- Landed 3.5 s ago: in Ground with the ground re-entry due now and the berserk 700 s away. -/
def landedBoss : boss_sapphiron :=
  ⟨sampleCreature 500,
    ⟨some .PHASE_GROUND,
      [⟨.EVENT_BERSERK, 700000, none⟩, ⟨.EVENT_GROUND, 3500, some .PHASE_GROUND⟩], none⟩,
    [], false, true⟩

/-- In Flight with the berserk due in 1 s and the landing due in 2 s. -/
def berserkBoss : boss_sapphiron :=
  ⟨sampleCreature 500,
    ⟨some .PHASE_FLIGHT,
      [⟨.EVENT_BERSERK, 1000, none⟩, ⟨.EVENT_LAND, 2000, some .PHASE_FLIGHT⟩], none⟩,
    [], false, true⟩

/-- An engine like `sampleEnv` in 25-player mode: three icebolt targets at liftoff, a blizzard
summon every 7 s. -/
def raidEnv : Env :=
  ⟨true, true, fun _ => 0, [playerGuid 1, playerGuid 2, playerGuid 3], fun _ => true⟩

/-- The state a sequence of calls leads to from `s`. -/
def stateAfter (s : boss_sapphiron) (cs : List boss_sapphiron.Call) : boss_sapphiron :=
  ((boss_sapphiron.runCalls s cs).map (·.1)).getD s

/-- An encounter up to the first liftoff: engage, an update at once (resistance check), an
update 30 s later (cleave) and three more at the same instant (tail sweep; blizzard summon and
life drain; resistance check), an update 18.5 s later (the flight deadline), the arrival at the
home point, and the update that lifts off. -/
def liftoffCalls : List boss_sapphiron.Call :=
  [.JustEngagedWith raidEnv, .UpdateAI 0 raidEnv, .UpdateAI 30000 raidEnv, .UpdateAI 0 raidEnv,
   .UpdateAI 0 raidEnv, .UpdateAI 0 raidEnv, .UpdateAI 18500 raidEnv, .MovementInform 0 1,
   .UpdateAI 0 raidEnv]

/-- The encounter `liftoffCalls` before its last update: arrived at the home point, the liftoff
due. -/
def arrivedBoss : boss_sapphiron := stateAfter (freshBoss 1000) liftoffCalls.dropLast

/-- Elapsed times of updates that take the flight sequence of `liftedBoss` to the ground
re-entry: every action of the sequence has an update on the instant it is due, and every other
action that comes due on the way has an update of its own. -/
def flightTicks : List Nat :=
  [5000, 2000, 3000, 1500, 1500, 2000, 8000, 3500, 500, 500, 500, 2000]

/-- The encounter `liftoffCalls` carried on through the flight sequence, the landing and the
ground re-entry, then an update 60 s later and five more at the same instant, up to the update
before the one that executes the second flight deadline. -/
def cycleCalls : List boss_sapphiron.Call :=
  liftoffCalls ++ flightTicks.map (fun d => .UpdateAI d raidEnv) ++
  [.UpdateAI 60000 raidEnv, .UpdateAI 0 raidEnv, .UpdateAI 0 raidEnv, .UpdateAI 0 raidEnv,
   .UpdateAI 0 raidEnv, .UpdateAI 0 raidEnv]

/-- In the second Ground phase of the encounter `cycleCalls`, at full health, with a blizzard
summon and the flight deadline both due. -/
def cycleBoss : boss_sapphiron := stateAfter (freshBoss 1000) cycleCalls

/-- The state `cycleBoss` with the health brought down to 5 % by the engine. -/
def weakBoss : boss_sapphiron :=
  stateAfter (freshBoss 1000) (cycleCalls ++ [.Engine (sampleCreature 50)])

/-- The encounter `liftoffCalls` engaged anew right after the liftoff: back in the Ground phase
with the first channel tick still queued. -/
def reengagedBoss : boss_sapphiron :=
  stateAfter (freshBoss 1000) (liftoffCalls ++ [.JustEngagedWith raidEnv])

/-! ## Theorems -/

/-- C1: for current health `H ≥ 1` and incoming damage `D` (a `uint32`), `DamageTaken` leaves
`H - 1` when the phase is Flight and `D ≥ H`, and `D` otherwise; so a lethal hit in Flight
leaves exactly one health point, nothing is clamped outside Flight, and the state (the phase
included) is never changed. -/
theorem DamageTaken_clamp (s : boss_sapphiron) (D : Nat)
    (hH : 1 ≤ s.me.health) (hD : D < 4294967296) :
    (s.DamageTaken D).2 =
        (if s.events.phase = some Phases.PHASE_FLIGHT ∧ s.me.health ≤ D
          then s.me.health - 1 else D)
      ∧ (s.events.phase = some Phases.PHASE_FLIGHT → s.me.health ≤ D →
          s.me.health - (s.DamageTaken D).2 = 1)
      ∧ (s.events.phase ≠ some Phases.PHASE_FLIGHT → (s.DamageTaken D).2 = D)
      ∧ (s.DamageTaken D).1 = s
      ∧ (s.DamageTaken D).1.events.phase = s.events.phase := by
  have key : (s.DamageTaken D).2 =
      (if s.events.phase = some Phases.PHASE_FLIGHT ∧ s.me.health ≤ D
        then s.me.health - 1 else D) := by
    unfold boss_sapphiron.DamageTaken EventMap.IsInPhase
    by_cases hp : s.events.phase = some Phases.PHASE_FLIGHT
    · by_cases hd : D < s.me.health
      · have : ¬ s.me.health ≤ D := by omega
        simp [hp, hd, this]
      · have hle : s.me.health ≤ D := by omega
        simp [hp, hd, hle]
        omega
    · simp [hp]
  have hst : (s.DamageTaken D).1 = s := by
    unfold boss_sapphiron.DamageTaken
    split <;> rfl
  refine ⟨key, ?_, ?_, hst, by rw [hst]⟩
  · intro hp hle
    rw [key, if_pos ⟨hp, hle⟩]
    omega
  · intro hp
    rw [key, if_neg (fun h => hp h.1)]

/-- Witness of C1: 9999 damage against 500 health in Flight leaves 499 damage, one health point
and the Flight phase. -/
theorem DamageTaken_clamp_witness :
    (1 ≤ flightBoss.me.health ∧ 9999 < 4294967296) ∧
      (flightBoss.DamageTaken 9999).2 = 499 ∧
      flightBoss.me.health - (flightBoss.DamageTaken 9999).2 = 1 ∧
      (flightBoss.DamageTaken 9999).1.events.phase = some Phases.PHASE_FLIGHT :=
  ⟨⟨by decide, by decide⟩,
   (DamageTaken_clamp flightBoss 9999 (by decide) (by decide)).1,
   (DamageTaken_clamp flightBoss 9999 (by decide) (by decide)).2.1 rfl (by decide),
   (DamageTaken_clamp flightBoss 9999 (by decide) (by decide)).2.2.2.2⟩

/-! ### Scheduler lemmas -/

theorem randtime_mem (lo hi r : Nat) (h : lo ≤ hi) :
    lo ≤ randtime lo hi r ∧ randtime lo hi r ≤ hi := by
  unfold randtime
  have : r % (hi - lo + 1) < hi - lo + 1 := Nat.mod_lt _ (by omega)
  omega

/-- What a successful `popDue` says about the queue: the popped action is due and eligible, it
is the first such action, and the rest is the queue without it. -/
theorem popDue_some {ph : Option Phases} :
    ∀ {q : List ScheduledAction} {a : ScheduledAction} {rest : List ScheduledAction},
      EventMap.popDue ph q = some (a, rest) →
      ∃ l1 l2, q = l1 ++ a :: l2 ∧ rest = l1 ++ l2 ∧ a.delay = 0 ∧
        EventMap.eligible ph a = true ∧
        ∀ b ∈ l1, ¬ (b.delay = 0 ∧ EventMap.eligible ph b = true) := by
  intro q
  induction q with
  | nil => intro a rest h; simp [EventMap.popDue] at h
  | cons x xs ih =>
    intro a rest h
    unfold EventMap.popDue at h
    by_cases hx : x.delay = 0 ∧ EventMap.eligible ph x = true
    · rw [if_pos hx] at h
      simp only [Option.some.injEq, Prod.mk.injEq] at h
      obtain ⟨rfl, rfl⟩ := h
      exact ⟨[], xs, rfl, rfl, hx.1, hx.2, by simp⟩
    · rw [if_neg hx] at h
      cases hp : EventMap.popDue ph xs with
      | none => rw [hp] at h; simp at h
      | some pr =>
        obtain ⟨b, r⟩ := pr
        rw [hp] at h
        simp only [Option.some.injEq, Prod.mk.injEq] at h
        obtain ⟨rfl, rfl⟩ := h
        obtain ⟨l1, l2, hq, hr, hd, he, hall⟩ := ih hp
        refine ⟨x :: l1, l2, by simp [hq], by simp [hr], hd, he, ?_⟩
        intro c hc
        rcases List.mem_cons.mp hc with rfl | hc
        · exact hx
        · exact hall c hc

/-- What a failed `popDue` says: no queued action is both due and eligible. -/
theorem popDue_none {ph : Option Phases} :
    ∀ {q : List ScheduledAction}, EventMap.popDue ph q = none →
      ∀ b ∈ q, ¬ (b.delay = 0 ∧ EventMap.eligible ph b = true) := by
  intro q
  induction q with
  | nil => intro _ b hb; simp at hb
  | cons x xs ih =>
    intro h b hb
    unfold EventMap.popDue at h
    by_cases hx : x.delay = 0 ∧ EventMap.eligible ph x = true
    · rw [if_pos hx] at h; simp at h
    · rw [if_neg hx] at h
      cases hp : EventMap.popDue ph xs with
      | none =>
        rcases List.mem_cons.mp hb with rfl | hb
        · exact hx
        · exact ih hp b hb
      | some pr => rw [hp] at h; simp at h

/-- `ExecuteEvent` returning an action, in terms of the queue. -/
theorem ExecuteEvent_some {em em1 : EventMap} {id : Events}
    (h : em.ExecuteEvent = (some id, em1)) :
    ∃ a l1 l2, a.id = id ∧ em.queue = l1 ++ a :: l2 ∧ a.delay = 0 ∧
      EventMap.eligible em.phase a = true ∧
      (∀ b ∈ l1, ¬ (b.delay = 0 ∧ EventMap.eligible em.phase b = true)) ∧
      em1 = { phase := em.phase, queue := l1 ++ l2, lastEvent := some a } := by
  unfold EventMap.ExecuteEvent at h
  cases hp : EventMap.popDue em.phase em.queue with
  | none => rw [hp] at h; simp at h
  | some pr =>
    obtain ⟨a, rest⟩ := pr
    rw [hp] at h
    simp only [Prod.mk.injEq, Option.some.injEq] at h
    obtain ⟨hid, hem⟩ := h
    obtain ⟨l1, l2, hq, hr, hd, he, hall⟩ := popDue_some hp
    exact ⟨a, l1, l2, hid, hq, hd, he, hall, by rw [← hem, hr]⟩

/-- `ExecuteEvent` returning nothing leaves the scheduler as it was. -/
theorem ExecuteEvent_none {em em1 : EventMap} (h : em.ExecuteEvent = (none, em1)) :
    em1 = em ∧ ∀ b ∈ em.queue, ¬ (b.delay = 0 ∧ EventMap.eligible em.phase b = true) := by
  unfold EventMap.ExecuteEvent at h
  cases hp : EventMap.popDue em.phase em.queue with
  | none =>
    rw [hp] at h
    simp only [Prod.mk.injEq, true_and] at h
    exact ⟨h.symm, popDue_none hp⟩
  | some pr => rw [hp] at h; simp at h

/-! ### The Ground loop -/

/-- The cases of the Ground switch that end with `break`: the blizzard summon, which casts and
schedules the next summon, and the cases that do nothing (the flight deadline at low health,
identifiers without a case). -/
theorem groundCase_break {env : Env} {id : Events} {s s2 : boss_sapphiron} {e : List Effect}
    (h : boss_sapphiron.groundCase env id s = .Break s2 e) :
    (id = Events.EVENT_BLIZZARD ∧
      s2 = { s with events := s.events.ScheduleEvent .EVENT_BLIZZARD (RAID_MODE env 20000 7000)
                                (some .PHASE_GROUND) } ∧
      e = [Effect.CastSpell .SPELL_SUMMON_BLIZZARD .AOE]) ∨
    (id ≠ Events.EVENT_BLIZZARD ∧ s2 = s ∧ e = [] ∧
      (id = Events.EVENT_FLIGHT → HealthAbovePct s.me.health s.me.maxHealth 10 = false)) := by
  cases id <;> simp only [boss_sapphiron.groundCase] at h
  case EVENT_BLIZZARD =>
    injection h with h1 h2
    exact Or.inl ⟨rfl, h1.symm, h2.symm⟩
  case EVENT_FLIGHT =>
    by_cases hh : HealthAbovePct s.me.health s.me.maxHealth 10 = true
    · simp [hh] at h
    · rw [if_neg hh] at h
      injection h with h1 h2
      exact Or.inr ⟨by decide, h1.symm, h2.symm, fun _ => by simpa using hh⟩
  all_goals first
    | (injection h with h1 h2
       exact Or.inr ⟨by decide, h1.symm, h2.symm, fun hc => by cases hc⟩)
    | cases h

/-- A Hoare-style rule for the Ground loop: an invariant `I` of the loop head that every
`break` re-establishes, and a postcondition `Q` that the exit without a due action and every
`return` establish. -/
theorem groundLoop_rule (env : Env)
    (I : boss_sapphiron → List Effect → List Events → Prop) (Q : boss_sapphiron.Outcome → Prop)
    (hnone : ∀ s eff ex, I s eff ex → s.events.ExecuteEvent = (none, s.events) →
      Q ⟨s, eff ++ [Effect.DoMeleeAttackIfReady], ex⟩)
    (hret : ∀ s eff ex id em s2 e, I s eff ex → s.events.ExecuteEvent = (some id, em) →
      boss_sapphiron.groundCase env id { s with events := em } = .Return s2 e →
      Q ⟨s2, eff ++ e, ex ++ [id]⟩)
    (hbrk : ∀ s eff ex id em s2 e, I s eff ex → s.events.ExecuteEvent = (some id, em) →
      boss_sapphiron.groundCase env id { s with events := em } = .Break s2 e →
      I s2 (eff ++ e) (ex ++ [id])) :
    ∀ fuel s eff ex out, I s eff ex →
      boss_sapphiron.groundLoop env fuel s eff ex = some out → Q out := by
  intro fuel
  induction fuel with
  | zero => intro s eff ex out _ h; simp [boss_sapphiron.groundLoop] at h
  | succ n ih =>
    intro s eff ex out hI h
    unfold boss_sapphiron.groundLoop at h
    rcases hx : s.events.ExecuteEvent with ⟨oid, em⟩
    rw [hx] at h
    cases oid with
    | none =>
      obtain ⟨rfl, _⟩ := ExecuteEvent_none hx
      simp only [Option.some.injEq] at h
      rw [← h]
      exact hnone s eff ex hI hx
    | some id =>
      simp only at h
      cases hc : boss_sapphiron.groundCase env id { s with events := em } with
      | Return s2 e =>
        rw [hc] at h
        simp only [Option.some.injEq] at h
        rw [← h]
        exact hret s eff ex id em s2 e hI hx hc
      | Break s2 e =>
        rw [hc] at h
        exact ih s2 _ _ out (hbrk s eff ex id em s2 e hI hx hc) h

/-- Number of queued actions whose delay has reached zero. -/
theorem dueCount_pop {em em1 : EventMap} {id : Events}
    (h : em.ExecuteEvent = (some id, em1)) :
    em1.queue.countP (fun a => decide (a.delay = 0)) + 1
      = em.queue.countP (fun a => decide (a.delay = 0)) := by
  obtain ⟨a, l1, l2, _, hq, hd, _, _, rfl⟩ := ExecuteEvent_some h
  rw [hq]
  simp [List.countP_append, List.countP_cons, hd]
  omega

/-- The Ground loop ends: each round pops a due action and a `break` case adds none, so more
fuel than there are due actions always yields an outcome. -/
theorem groundLoop_total (env : Env) :
    ∀ fuel s eff ex, s.events.queue.countP (fun a => decide (a.delay = 0)) < fuel →
      ∃ out, boss_sapphiron.groundLoop env fuel s eff ex = some out := by
  intro fuel
  induction fuel with
  | zero => intro s eff ex h; omega
  | succ n ih =>
    intro s eff ex hlt
    unfold boss_sapphiron.groundLoop
    rcases hx : s.events.ExecuteEvent with ⟨oid, em⟩
    cases oid with
    | none => exact ⟨_, rfl⟩
    | some id =>
      simp only
      have hpop := dueCount_pop hx
      cases hc : boss_sapphiron.groundCase env id { s with events := em } with
      | Return s2 e => exact ⟨_, rfl⟩
      | Break s2 e =>
        simp only
        apply ih
        rcases groundCase_break hc with ⟨_, rfl, _⟩ | ⟨_, rfl, _, _⟩
        · have hpos : RAID_MODE env 20000 7000 ≠ 0 := by
            unfold RAID_MODE; split <;> decide
          simp [EventMap.ScheduleEvent, List.countP_append, hpos]
          omega
        · simp only
          omega

/-- `UpdateAI` always returns: the fuel it hands to the Ground loop is enough. -/
theorem UpdateAI_total (s : boss_sapphiron) (diff : Nat) (env : Env) :
    ∃ out, s.UpdateAI diff env = some out := by
  unfold boss_sapphiron.UpdateAI
  simp only
  split
  · exact ⟨_, rfl⟩
  · split
    · apply groundLoop_total
      exact Nat.lt_succ_of_le (List.countP_le_length _)
    · exact ⟨_, rfl⟩

theorem pending_Update (em : EventMap) (diff : Nat) (id : Events) :
    (em.Update diff).pending id = em.pending id := by
  unfold EventMap.pending EventMap.Update
  simp only [List.countP_map]
  rfl

theorem pending_ScheduleEvent (em : EventMap) (id id2 : Events) (t : Nat) (tag : Option Phases) :
    (em.ScheduleEvent id2 t tag).pending id = em.pending id + (if id2 = id then 1 else 0) := by
  unfold EventMap.pending EventMap.ScheduleEvent
  by_cases h : id2 = id <;> simp [List.countP_append, List.countP_cons, h]

theorem pending_SetPhase (em : EventMap) (p : Phases) (id : Events) :
    (em.SetPhase p).pending id = em.pending id := rfl

theorem pending_Repeat (em : EventMap) (a : ScheduledAction) (t : Nat) (id : Events)
    (h : em.lastEvent = some a) :
    (em.Repeat t).pending id = em.pending id + (if a.id = id then 1 else 0) := by
  unfold EventMap.pending EventMap.Repeat
  rw [h]
  by_cases h2 : a.id = id <;> simp [List.countP_append, List.countP_cons, h2]

theorem pending_pop {em em1 : EventMap} {id : Events} (h : em.ExecuteEvent = (some id, em1))
    (id2 : Events) :
    em1.pending id2 + (if id = id2 then 1 else 0) = em.pending id2 := by
  obtain ⟨a, l1, l2, ha, hq, _, _, _, rfl⟩ := ExecuteEvent_some h
  unfold EventMap.pending
  rw [hq]
  by_cases h2 : id = id2
  · have : a.id = id2 := ha.trans h2
    simp [List.countP_append, List.countP_cons, h2, this]
    omega
  · have : ¬ a.id = id2 := fun hc => h2 (ha.symm.trans hc)
    simp [List.countP_append, List.countP_cons, h2, this]

theorem phase_pop {em em1 : EventMap} {oid : Option Events} (h : em.ExecuteEvent = (oid, em1)) :
    em1.phase = em.phase := by
  cases oid with
  | none => rw [(ExecuteEvent_none h).1]
  | some id =>
    obtain ⟨a, l1, l2, _, _, _, _, _, rfl⟩ := ExecuteEvent_some h
    rfl

theorem lastEvent_pop {em em1 : EventMap} {id : Events} (h : em.ExecuteEvent = (some id, em1)) :
    ∃ a, em1.lastEvent = some a ∧ a.id = id ∧ EventMap.eligible em.phase a = true := by
  obtain ⟨a, l1, l2, ha, _, _, he, _, rfl⟩ := ExecuteEvent_some h
  exact ⟨a, rfl, ha, he⟩

/-- The `return` cases of the Ground switch when the health is not above 10 %: the phase is
kept, no movement is ordered, no liftoff is scheduled, and only the ground re-entry schedules a
flight deadline. -/
theorem groundCase_return_low {env : Env} {id : Events} {s s2 : boss_sapphiron}
    {e : List Effect}
    (hlow : HealthAbovePct s.me.health s.me.maxHealth 10 = false)
    (hlast : ∃ a, s.events.lastEvent = some a ∧ a.id = id)
    (h : boss_sapphiron.groundCase env id s = .Return s2 e) :
    s2.events.phase = s.events.phase ∧ (∀ p, Effect.MovePoint p ∉ e) ∧
      s2.events.pending .EVENT_LIFTOFF = s.events.pending .EVENT_LIFTOFF ∧
      (id ≠ Events.EVENT_GROUND →
        s2.events.pending .EVENT_FLIGHT = s.events.pending .EVENT_FLIGHT) := by
  obtain ⟨a, hla, hid⟩ := hlast
  cases id <;>
    simp only [boss_sapphiron.groundCase, hlow, Bool.false_eq_true, if_false] at h <;>
    cases h <;>
    simp [boss_sapphiron.EnterPhaseGround, boss_sapphiron.CastDrain, pending_ScheduleEvent,
      pending_Repeat _ a _ _ hla, hid]
  all_goals simp [EventMap.ScheduleEvent, EventMap.Repeat, hla]

/-- C2: engaging combat sets the phase to Ground and appends exactly seven actions to the
schedule: resistance check at 0 s and berserk at 900 s (untagged), cleave in [5 s, 15 s], tail
sweep in [7 s, 10 s] and blizzard summon in [5 s, 10 s] (Ground), life drain in [22 s, 28 s]
(untagged) and the flight deadline at exactly 48.5 s (Ground); whatever was queued stays. -/
theorem JustEngagedWith_schedule (s : boss_sapphiron) (env : Env) :
    ∃ cleave tail blizzard drain : Nat,
      (5000 ≤ cleave ∧ cleave ≤ 15000) ∧ (7000 ≤ tail ∧ tail ≤ 10000) ∧
      (5000 ≤ blizzard ∧ blizzard ≤ 10000) ∧ (22000 ≤ drain ∧ drain ≤ 28000) ∧
      (s.JustEngagedWith env).1.events.phase = some Phases.PHASE_GROUND ∧
      (s.JustEngagedWith env).1.events.queue = s.events.queue ++
        [⟨Events.EVENT_CHECK_RESISTS, 0, none⟩,
         ⟨Events.EVENT_BERSERK, 900000, none⟩,
         ⟨Events.EVENT_CLEAVE, cleave, some Phases.PHASE_GROUND⟩,
         ⟨Events.EVENT_TAIL, tail, some Phases.PHASE_GROUND⟩,
         ⟨Events.EVENT_BLIZZARD, blizzard, some Phases.PHASE_GROUND⟩,
         ⟨Events.EVENT_DRAIN, drain, none⟩,
         ⟨Events.EVENT_FLIGHT, 48500, some Phases.PHASE_GROUND⟩] := by
  refine ⟨randtime 5000 15000 (env.rand 0), randtime 7000 10000 (env.rand 1),
    randtime 5000 10000 (env.rand 2), randtime 22000 28000 (env.rand 3),
    randtime_mem _ _ _ (by norm_num), randtime_mem _ _ _ (by norm_num),
    randtime_mem _ _ _ (by norm_num), randtime_mem _ _ _ (by norm_num), ?_, ?_⟩
  · simp [boss_sapphiron.JustEngagedWith, boss_sapphiron.EnterPhaseGround,
      EventMap.ScheduleEvent, EventMap.SetPhase]
  · simp [boss_sapphiron.JustEngagedWith, boss_sapphiron.EnterPhaseGround,
      EventMap.ScheduleEvent, EventMap.SetPhase]

/-! ### Runs of updates -/

theorem airCase_LAND (env : Env) (s : boss_sapphiron) :
    (boss_sapphiron.airCase env .EVENT_LAND s).state.events.phase = some Phases.PHASE_GROUND ∧
    (boss_sapphiron.airCase env .EVENT_LAND s).state.events.queue
      = (s.events.queue ++ (if s._delayedDrain
            then [⟨.EVENT_DRAIN, randtime 22000 28000 (env.rand 0), none⟩] else []))
          ++ [⟨.EVENT_GROUND, 3500, some Phases.PHASE_GROUND⟩] ∧
    (boss_sapphiron.airCase env .EVENT_LAND s).state._iceboltTargets = s._iceboltTargets := by
  cases h : s._delayedDrain <;>
    simp [boss_sapphiron.airCase, h, boss_sapphiron.SwitchResult.state, boss_sapphiron.CastDrain,
      EventMap.ScheduleEvent, EventMap.SetPhase]

/-! ### Phase tags -/

theorem WellTagged_Update {em : EventMap} (h : WellTagged em) (diff : Nat) :
    WellTagged (em.Update diff) := by
  intro a ha
  obtain ⟨c, hc, rfl⟩ := List.mem_map.mp ha
  exact h c hc

theorem WellTagged_ScheduleEvent {em : EventMap} (h : WellTagged em) (id : Events) (t : Nat)
    (tag : Option Phases) (ht : tag = expectedTag id) : WellTagged (em.ScheduleEvent id t tag) := by
  intro a ha
  rcases List.mem_append.mp ha with ha | ha
  · exact h a ha
  · simp only [List.mem_singleton] at ha
    subst ha
    exact ht

theorem WellTagged_SetPhase {em : EventMap} (h : WellTagged em) (p : Phases) :
    WellTagged (em.SetPhase p) := h

theorem WellTagged_Repeat {em : EventMap} (h : WellTagged em) (t : Nat)
    (hl : ∀ a, em.lastEvent = some a → a.tag = expectedTag a.id) : WellTagged (em.Repeat t) := by
  unfold EventMap.Repeat
  cases hla : em.lastEvent with
  | none => exact h
  | some a =>
    intro b hb
    rcases List.mem_append.mp hb with hb | hb
    · exact h b hb
    · simp only [List.mem_singleton] at hb
      subst hb
      exact hl a hla

/-- Popping keeps the tags in order, remembers a well-tagged action, and pops only an action
whose tag, if it has one, is the active phase. -/
theorem WellTagged_pop {em em1 : EventMap} {id : Events} (h : WellTagged em)
    (hx : em.ExecuteEvent = (some id, em1)) :
    WellTagged em1 ∧ (∀ a, em1.lastEvent = some a → a.tag = expectedTag a.id) ∧
      (∀ Q, expectedTag id = some Q → em.phase = some Q) := by
  obtain ⟨a, l1, l2, ha, hq, _, he, _, rfl⟩ := ExecuteEvent_some hx
  have hmem : a ∈ em.queue := by rw [hq]; simp
  have hta := h a hmem
  refine ⟨?_, ?_, ?_⟩
  · intro b hb
    apply h b
    rw [hq]
    rcases List.mem_append.mp hb with hb | hb
    · exact List.mem_append.mpr (Or.inl hb)
    · exact List.mem_append.mpr (Or.inr (List.mem_cons_of_mem _ hb))
  · intro b hb
    simp only [Option.some.injEq] at hb
    subst hb
    exact hta
  · intro Q hQ
    rw [← ha, ← hta] at hQ
    unfold EventMap.eligible at he
    rw [hQ] at he
    simpa using he

theorem WellTagged_none {em em1 : EventMap} (h : WellTagged em)
    (hx : em.ExecuteEvent = (none, em1)) : WellTagged em1 := by
  rw [(ExecuteEvent_none hx).1]
  exact h

theorem WellTagged_EnterPhaseGround {s : boss_sapphiron} (h : WellTagged s.events) (env : Env)
    (initial : Bool) : WellTagged (s.EnterPhaseGround env initial).events := by
  unfold boss_sapphiron.EnterPhaseGround
  cases initial
  · exact WellTagged_ScheduleEvent (WellTagged_ScheduleEvent (WellTagged_ScheduleEvent
      (WellTagged_ScheduleEvent h _ _ _ rfl) _ _ _ rfl) _ _ _ rfl) _ _ _ rfl
  · exact WellTagged_ScheduleEvent (WellTagged_ScheduleEvent (WellTagged_ScheduleEvent
      (WellTagged_ScheduleEvent (WellTagged_ScheduleEvent h _ _ _ rfl) _ _ _ rfl) _ _ _ rfl)
      _ _ _ rfl) _ _ _ rfl

theorem WellTagged_groundCase {env : Env} {id : Events} {s : boss_sapphiron}
    (h : WellTagged s.events)
    (hl : ∀ a, s.events.lastEvent = some a → a.tag = expectedTag a.id) :
    WellTagged (boss_sapphiron.groundCase env id s).state.events := by
  cases id
  case EVENT_CHECK_RESISTS => exact WellTagged_Repeat h _ hl
  case EVENT_GROUND => exact WellTagged_EnterPhaseGround h env false
  case EVENT_CLEAVE => exact WellTagged_ScheduleEvent h _ _ _ rfl
  case EVENT_TAIL => exact WellTagged_ScheduleEvent h _ _ _ rfl
  case EVENT_DRAIN => exact WellTagged_ScheduleEvent h _ _ _ rfl
  case EVENT_BLIZZARD => exact WellTagged_ScheduleEvent h _ _ _ rfl
  case EVENT_FLIGHT =>
    by_cases hh : HealthAbovePct s.me.health s.me.maxHealth 10 = true
    · simp only [boss_sapphiron.groundCase, hh, if_true, boss_sapphiron.SwitchResult.state]
      exact h
    · simp only [boss_sapphiron.groundCase, hh, if_false, boss_sapphiron.SwitchResult.state]
      exact h
  all_goals exact h

theorem WellTagged_airCase {env : Env} {id : Events} {s : boss_sapphiron}
    (h : WellTagged s.events)
    (hl : ∀ a, s.events.lastEvent = some a → a.tag = expectedTag a.id) :
    WellTagged (boss_sapphiron.airCase env id s).state.events := by
  cases id
  case EVENT_CHECK_RESISTS => exact WellTagged_Repeat h _ hl
  case EVENT_LIFTOFF => exact WellTagged_ScheduleEvent h _ _ _ rfl
  case EVENT_ICEBOLT =>
    cases hg : s._iceboltTargets.getLast? with
    | none =>
      simp only [boss_sapphiron.airCase, hg, boss_sapphiron.SwitchResult.state]
      exact WellTagged_ScheduleEvent h _ _ _ rfl
    | some target =>
      by_cases he : s._iceboltTargets.dropLast.isEmpty = true
      · simp only [boss_sapphiron.airCase, hg, he, if_true, boss_sapphiron.SwitchResult.state]
        exact WellTagged_ScheduleEvent h _ _ _ rfl
      · simp only [boss_sapphiron.airCase, hg, he, if_false, boss_sapphiron.SwitchResult.state]
        exact WellTagged_Repeat h _ hl
  case EVENT_BREATH => exact WellTagged_ScheduleEvent h _ _ _ rfl
  case EVENT_EXPLOSION => exact WellTagged_ScheduleEvent h _ _ _ rfl
  case EVENT_LAND =>
    cases hd : s._delayedDrain
    · simp only [boss_sapphiron.airCase, hd, boss_sapphiron.SwitchResult.state]
      exact WellTagged_ScheduleEvent h _ _ _ rfl
    · simp only [boss_sapphiron.airCase, hd, boss_sapphiron.SwitchResult.state]
      exact WellTagged_ScheduleEvent (WellTagged_ScheduleEvent h _ _ _ rfl) _ _ _ rfl
  all_goals exact h

theorem airStep_some {env : Env} {s : boss_sapphiron} {id : Events} {em : EventMap}
    (hx : s.events.ExecuteEvent = (some id, em)) :
    boss_sapphiron.airStep env s =
      ⟨(boss_sapphiron.airCase env id { s with events := em }).state,
       (boss_sapphiron.airCase env id { s with events := em }).effects, [id]⟩ := by
  unfold boss_sapphiron.airStep
  rw [hx]
  simp only
  cases boss_sapphiron.airCase env id { s with events := em } <;> rfl

theorem airStep_none {env : Env} {s : boss_sapphiron} {em : EventMap}
    (hx : s.events.ExecuteEvent = (none, em)) :
    boss_sapphiron.airStep env s = ⟨s, [], []⟩ := by
  unfold boss_sapphiron.airStep
  rw [hx]
  simp only
  rw [(ExecuteEvent_none hx).1]

/-- The Ground loop keeps the tags in order and executes no action tagged for another phase. -/
theorem groundLoop_tagged (env : Env) :
    ∀ fuel s eff ex out,
      (WellTagged s.events ∧ s.events.phase = some Phases.PHASE_GROUND ∧
        ∀ id ∈ ex, ∀ Q, expectedTag id = some Q → Q = Phases.PHASE_GROUND) →
      boss_sapphiron.groundLoop env fuel s eff ex = some out →
      (WellTagged out.state.events ∧
        ∀ id ∈ out.executed, ∀ Q, expectedTag id = some Q → Q = Phases.PHASE_GROUND) := by
  have hstep : ∀ (s : boss_sapphiron) (ex : List Events) (id : Events) (em : EventMap),
      (WellTagged s.events ∧ s.events.phase = some Phases.PHASE_GROUND ∧
        ∀ id ∈ ex, ∀ Q, expectedTag id = some Q → Q = Phases.PHASE_GROUND) →
      s.events.ExecuteEvent = (some id, em) →
      WellTagged (boss_sapphiron.groundCase env id { s with events := em }).state.events ∧
        ∀ i ∈ ex ++ [id], ∀ Q, expectedTag i = some Q → Q = Phases.PHASE_GROUND := by
    rintro s ex id em ⟨hw, hp, hex⟩ hx
    obtain ⟨hw1, hl1, hq1⟩ := WellTagged_pop hw hx
    refine ⟨WellTagged_groundCase hw1 hl1, ?_⟩
    intro i hi Q hQ
    rcases List.mem_append.mp hi with hi | hi
    · exact hex i hi Q hQ
    · simp only [List.mem_singleton] at hi
      subst hi
      have := hq1 Q hQ
      rw [hp] at this
      exact (Option.some.inj this).symm
  apply groundLoop_rule env
  · rintro s eff ex ⟨hw, _, hex⟩ _
    exact ⟨hw, hex⟩
  · rintro s eff ex id em s2 e hI hx hc
    have := hstep s ex id em hI hx
    rw [hc] at this
    exact this
  · rintro s eff ex id em s2 e hI hx hc
    have := hstep s ex id em hI hx
    rw [hc] at this
    refine ⟨this.1, ?_, this.2⟩
    have hp1 : em.phase = some Phases.PHASE_GROUND := (phase_pop hx).trans hI.2.1
    rcases groundCase_break hc with ⟨_, rfl, _⟩ | ⟨_, rfl, _, _⟩
    · exact hp1
    · exact hp1

/-- An update keeps the tags in order, and every action it executes that the script schedules
with a phase tag is executed in that phase. -/
theorem UpdateAI_tagged {s : boss_sapphiron} {diff : Nat} {env : Env}
    {out : boss_sapphiron.Outcome}
    (h : WellTagged s.events) (hu : s.UpdateAI diff env = some out) :
    WellTagged out.state.events ∧
      ∀ id ∈ out.executed, ∀ Q, expectedTag id = some Q → s.events.phase = some Q := by
  have hw := WellTagged_Update h diff
  unfold boss_sapphiron.UpdateAI at hu
  simp only at hu
  split at hu
  · simp only [Option.some.injEq] at hu
    subst hu
    exact ⟨hw, by simp⟩
  · split at hu
    · rename_i hg
      have hp : s.events.phase = some Phases.PHASE_GROUND := by
        simpa [EventMap.IsInPhase, EventMap.Update] using hg
      obtain ⟨h1, h2⟩ := groundLoop_tagged env _ { s with events := s.events.Update diff }
        [] [] out ⟨hw, hp, fun _ hi => absurd hi (List.not_mem_nil _)⟩ hu
      refine ⟨h1, ?_⟩
      intro id hid Q hQ
      rw [h2 id hid Q hQ]
      exact hp
    · simp only [Option.some.injEq] at hu
      subst hu
      rcases hx : (s.events.Update diff).ExecuteEvent with ⟨oid, em⟩
      cases oid with
      | none =>
        rw [airStep_none hx]
        exact ⟨hw, by simp⟩
      | some id =>
        rw [airStep_some hx]
        obtain ⟨hw1, hl1, hq1⟩ := WellTagged_pop hw hx
        refine ⟨WellTagged_airCase hw1 hl1, ?_⟩
        intro i hi Q hQ
        simp only [List.mem_singleton] at hi
        subst hi
        exact hq1 Q hQ

theorem call_WellTagged {s : boss_sapphiron} {c : boss_sapphiron.Call}
    {out : boss_sapphiron.Outcome}
    (h : WellTagged s.events) (hc : boss_sapphiron.call s c = some out) :
    WellTagged out.state.events := by
  cases c with
  | UpdateAI diff env => exact (UpdateAI_tagged h hc).1
  | JustEngagedWith env =>
    simp only [boss_sapphiron.call, Option.some.injEq] at hc
    subst hc
    exact WellTagged_EnterPhaseGround (s := { s with events := _ })
      (WellTagged_ScheduleEvent (WellTagged_ScheduleEvent (WellTagged_SetPhase h _) _ _ _ rfl)
        _ _ _ rfl) env true
  | DamageTaken damage =>
    simp only [boss_sapphiron.call, Option.some.injEq] at hc
    subst hc
    unfold boss_sapphiron.DamageTaken
    split <;> exact h
  | SpellHitTarget resistance spellId =>
    simp only [boss_sapphiron.call, Option.some.injEq] at hc
    subst hc
    unfold boss_sapphiron.SpellHitTarget
    cases resistance with
    | none => exact h
    | some r =>
      simp only
      split
      · split <;> exact h
      · exact h
  | MovementInform type id =>
    simp only [boss_sapphiron.call, Option.some.injEq] at hc
    subst hc
    unfold boss_sapphiron.MovementInform
    split
    · exact WellTagged_ScheduleEvent h _ _ _ rfl
    · exact h
  | DoAction param =>
    simp only [boss_sapphiron.call, Option.some.injEq] at hc
    subst hc
    unfold boss_sapphiron.DoAction
    split
    · exact WellTagged_ScheduleEvent (WellTagged_SetPhase h _) _ _ _ rfl
    · exact h
  | Engine me =>
    simp only [boss_sapphiron.call, Option.some.injEq] at hc
    subst hc
    exact h

/-- In every state of an encounter the queued actions carry the tags the script schedules
them with. -/
theorem Reachable_WellTagged {s : boss_sapphiron} (h : boss_sapphiron.Reachable s) :
    WellTagged s.events := by
  induction h with
  | fresh me => intro a ha; simp at ha
  | step s c out _ hc ih => exact call_WellTagged ih hc

/-- C6: `popDue` never returns an action tagged for a phase other than the active one; and in
every state of an encounter, an update executes a Ground-tagged action (cleave, tail sweep,
blizzard summon, flight deadline, ground re-entry) only while the phase is Ground and a
Flight-tagged action (liftoff, icebolt, breath, explosion, landing) only while the phase is
Flight. -/
theorem phase_invariant (s : boss_sapphiron) (h : boss_sapphiron.Reachable s)
    (diff : Nat) (env : Env) :
    (∀ ph q a rest, EventMap.popDue ph q = some (a, rest) → ∀ Q, a.tag = some Q → ph = some Q) ∧
    ∃ out, s.UpdateAI diff env = some out ∧
      (∀ id ∈ out.executed, ∀ Q, expectedTag id = some Q → s.events.phase = some Q) ∧
      (∀ id ∈ out.executed,
        id ∈ [Events.EVENT_CLEAVE, .EVENT_TAIL, .EVENT_BLIZZARD, .EVENT_FLIGHT, .EVENT_GROUND] →
        s.events.phase = some Phases.PHASE_GROUND) ∧
      (∀ id ∈ out.executed,
        id ∈ [Events.EVENT_LIFTOFF, .EVENT_ICEBOLT, .EVENT_BREATH, .EVENT_EXPLOSION,
          .EVENT_LAND] →
        s.events.phase = some Phases.PHASE_FLIGHT) := by
  constructor
  · intro ph q a rest hp Q hQ
    obtain ⟨_, _, _, _, _, he, _⟩ := popDue_some hp
    unfold EventMap.eligible at he
    rw [hQ] at he
    simpa using he
  · obtain ⟨out, hout⟩ := UpdateAI_total s diff env
    have ht := (UpdateAI_tagged (Reachable_WellTagged h) hout).2
    refine ⟨out, hout, ht, ?_, ?_⟩
    · intro id hid hmem
      apply ht id hid
      simp only [List.mem_cons, List.mem_singleton, List.not_mem_nil, or_false] at hmem
      rcases hmem with rfl | rfl | rfl | rfl | rfl <;> rfl
    · intro id hid hmem
      apply ht id hid
      simp only [List.mem_cons, List.mem_singleton, List.not_mem_nil, or_false] at hmem
      rcases hmem with rfl | rfl | rfl | rfl | rfl <;> rfl

/-! ### Deferred life drain -/

theorem Repeat_phase (em : EventMap) (t : Nat) : (em.Repeat t).phase = em.phase := by
  unfold EventMap.Repeat
  split <;> rfl

theorem airCase_flag_phase {env : Env} {id : Events} {s : boss_sapphiron}
    (h1 : id ≠ Events.EVENT_DRAIN) (h2 : id ≠ Events.EVENT_LAND) :
    (boss_sapphiron.airCase env id s).state._delayedDrain = s._delayedDrain ∧
      (boss_sapphiron.airCase env id s).state.events.phase = s.events.phase := by
  cases id
  case EVENT_DRAIN => exact absurd rfl h1
  case EVENT_LAND => exact absurd rfl h2
  case EVENT_ICEBOLT =>
    cases hg : s._iceboltTargets.getLast? with
    | none =>
      simp only [boss_sapphiron.airCase, hg, boss_sapphiron.SwitchResult.state]
      exact ⟨trivial, rfl⟩
    | some target =>
      by_cases he : s._iceboltTargets.dropLast.isEmpty = true
      · simp only [boss_sapphiron.airCase, hg, he, if_true, boss_sapphiron.SwitchResult.state]
        exact ⟨trivial, rfl⟩
      · simp [boss_sapphiron.airCase, hg, he, boss_sapphiron.SwitchResult.state, Repeat_phase]
  case EVENT_CHECK_RESISTS =>
    simp only [boss_sapphiron.airCase, boss_sapphiron.SwitchResult.state]
    exact ⟨trivial, Repeat_phase _ _⟩
  all_goals exact ⟨rfl, rfl⟩

theorem airCase_flag_true {env : Env} {id : Events} {s : boss_sapphiron}
    (h : s._delayedDrain = true) :
    (boss_sapphiron.airCase env id s).state._delayedDrain = true := by
  by_cases h1 : id = Events.EVENT_DRAIN
  · subst h1; rfl
  · by_cases h2 : id = Events.EVENT_LAND
    · subst h2
      simp [boss_sapphiron.airCase, h, boss_sapphiron.SwitchResult.state,
        boss_sapphiron.CastDrain]
    · rw [(airCase_flag_phase h1 h2).1, h]

/-- The landing case: it ends in Ground; with a deferred drain it casts life drain once and
schedules one life drain before the ground re-entry, without one it casts none. -/
theorem airCase_LAND_drain (env : Env) (s : boss_sapphiron) :
    (s._delayedDrain = true →
      (boss_sapphiron.airCase env .EVENT_LAND s).effects.count
          (Effect.CastSpell .SPELL_LIFE_DRAIN .AOE) = 1 ∧
      (boss_sapphiron.airCase env .EVENT_LAND s).state.events.queue = s.events.queue ++
        [⟨.EVENT_DRAIN, randtime 22000 28000 (env.rand 0), none⟩,
         ⟨.EVENT_GROUND, 3500, some Phases.PHASE_GROUND⟩]) ∧
    (s._delayedDrain = false →
      (boss_sapphiron.airCase env .EVENT_LAND s).effects.count
          (Effect.CastSpell .SPELL_LIFE_DRAIN .AOE) = 0 ∧
      (boss_sapphiron.airCase env .EVENT_LAND s).state.events.queue = s.events.queue ++
        [⟨.EVENT_GROUND, 3500, some Phases.PHASE_GROUND⟩]) := by
  constructor
  · intro h
    simp [boss_sapphiron.airCase, h, boss_sapphiron.SwitchResult.state,
      boss_sapphiron.SwitchResult.effects, boss_sapphiron.CastDrain, EventMap.ScheduleEvent,
      EventMap.SetPhase, List.count_cons]
  · intro h
    simp [boss_sapphiron.airCase, h, boss_sapphiron.SwitchResult.state,
      boss_sapphiron.SwitchResult.effects, EventMap.ScheduleEvent,
      EventMap.SetPhase, List.count_cons]

/-- An update outside Ground and Birth that has a victim runs the other branch. -/
theorem UpdateAI_air {s : boss_sapphiron} {diff : Nat} {env : Env}
    (hp : s.events.phase = some Phases.PHASE_FLIGHT) (hv : env.updateVictim = true) :
    s.UpdateAI diff env
      = some (boss_sapphiron.airStep env { s with events := s.events.Update diff }) := by
  simp [boss_sapphiron.UpdateAI, EventMap.IsInPhase, EventMap.Update, hp, hv]

/-- The Ground branch never ends in Flight with a deferred drain: taking off clears the flag. -/
theorem groundLoop_takeoff (env : Env) :
    ∀ fuel s eff ex out, s.events.phase = some Phases.PHASE_GROUND →
      boss_sapphiron.groundLoop env fuel s eff ex = some out →
      (out.state.events.phase = some Phases.PHASE_FLIGHT → out.state._delayedDrain = false) := by
  apply groundLoop_rule env (fun s _ _ => s.events.phase = some Phases.PHASE_GROUND)
  · intro s eff ex hp _ hc
    rw [hp] at hc
    cases hc
  · intro s eff ex id em s2 e hp hx hc hf
    have hp1 : em.phase = some Phases.PHASE_GROUND := (phase_pop hx).trans hp
    cases id <;> simp only [boss_sapphiron.groundCase] at hc
    case EVENT_FLIGHT =>
      split at hc
      · cases hc; rfl
      · cases hc
    case EVENT_CHECK_RESISTS =>
      cases hc
      simp only [Repeat_phase, hp1] at hf
      cases hf
    case EVENT_GROUND =>
      cases hc
      have : (boss_sapphiron.EnterPhaseGround { s with events := em } env false).events.phase
          = em.phase := rfl
      simp only [this, hp1] at hf
      cases hf
    all_goals first
      | (cases hc
         have hf2 : em.phase = some Phases.PHASE_FLIGHT := hf
         rw [hp1] at hf2
         cases hf2)
      | cases hc
  · intro s eff ex id em s2 e hp hx hc
    have hp1 : em.phase = some Phases.PHASE_GROUND := (phase_pop hx).trans hp
    rcases groundCase_break hc with ⟨_, rfl, _⟩ | ⟨_, rfl, _, _⟩
    · exact hp1
    · exact hp1

/-- The three ways through `UpdateAI`: no victim outside Birth, the Ground loop, or the other
branch. -/
theorem UpdateAI_cases {s : boss_sapphiron} {diff : Nat} {env : Env}
    {out : boss_sapphiron.Outcome} (hu : s.UpdateAI diff env = some out) :
    out = ⟨{ s with events := s.events.Update diff }, [], []⟩ ∨
    (s.events.phase = some Phases.PHASE_GROUND ∧
      boss_sapphiron.groundLoop env ((s.events.Update diff).queue.length + 1)
        { s with events := s.events.Update diff } [] [] = some out) ∨
    (s.events.phase ≠ some Phases.PHASE_GROUND ∧
      out = boss_sapphiron.airStep env { s with events := s.events.Update diff }) := by
  unfold boss_sapphiron.UpdateAI at hu
  simp only at hu
  split at hu
  · exact Or.inl (Option.some.inj hu).symm
  · split at hu
    · rename_i hg
      exact Or.inr (Or.inl ⟨by simpa [EventMap.IsInPhase, EventMap.Update] using hg, hu⟩)
    · rename_i hg
      refine Or.inr (Or.inr ⟨?_, (Option.some.inj hu).symm⟩)
      intro hc
      apply hg
      simp [EventMap.IsInPhase, EventMap.Update, hc]

/-- Where a deferred drain in Flight comes from: it was there before the call, or the call
deferred a drain. -/
theorem call_flag_origin {s : boss_sapphiron} {c : boss_sapphiron.Call}
    {out : boss_sapphiron.Outcome} (hc : boss_sapphiron.call s c = some out)
    (hp : out.state.events.phase = some Phases.PHASE_FLIGHT)
    (hf : out.state._delayedDrain = true) :
    (s.events.phase = some Phases.PHASE_FLIGHT ∧ s._delayedDrain = true) ∨
      boss_sapphiron.isDeferral out = true := by
  cases c with
  | UpdateAI diff env =>
    rcases UpdateAI_cases hc with rfl | ⟨hg, hl⟩ | ⟨_, rfl⟩
    · exact Or.inl ⟨hp, hf⟩
    · have := groundLoop_takeoff env _ { s with events := s.events.Update diff } [] [] out
        hg hl hp
      rw [hf] at this
      cases this
    · rcases hx : (s.events.Update diff).ExecuteEvent with ⟨oid, em⟩
      cases oid with
      | none =>
        rw [airStep_none hx] at hp hf
        exact Or.inl ⟨hp, hf⟩
      | some id =>
        rw [airStep_some hx] at hp hf ⊢
        by_cases h1 : id = Events.EVENT_DRAIN
        · subst h1
          exact Or.inr rfl
        · by_cases h2 : id = Events.EVENT_LAND
          · subst h2
            rw [(airCase_LAND env _).1] at hp
            cases hp
          · obtain ⟨e1, e2⟩ := @airCase_flag_phase env id { s with events := em } h1 h2
            simp only at hp hf
            rw [e2] at hp
            rw [e1] at hf
            have hps : s.events.phase = some Phases.PHASE_FLIGHT :=
              (phase_pop hx).symm.trans hp
            exact Or.inl ⟨hps, hf⟩
  | JustEngagedWith env =>
    simp only [boss_sapphiron.call, Option.some.injEq] at hc
    subst hc
    cases hp
  | DamageTaken damage =>
    simp only [boss_sapphiron.call, Option.some.injEq] at hc
    subst hc
    have : (s.DamageTaken damage).1 = s := by
      unfold boss_sapphiron.DamageTaken
      split <;> rfl
    simp only [this] at hp hf
    exact Or.inl ⟨hp, hf⟩
  | SpellHitTarget resistance spellId =>
    simp only [boss_sapphiron.call, Option.some.injEq] at hc
    subst hc
    have : (s.SpellHitTarget resistance spellId).events = s.events ∧
        (s.SpellHitTarget resistance spellId)._delayedDrain = s._delayedDrain := by
      unfold boss_sapphiron.SpellHitTarget
      cases resistance with
      | none => exact ⟨rfl, rfl⟩
      | some r =>
        simp only
        split
        · split <;> exact ⟨rfl, rfl⟩
        · exact ⟨rfl, rfl⟩
    simp only [this.1, this.2] at hp hf
    exact Or.inl ⟨hp, hf⟩
  | MovementInform type id =>
    simp only [boss_sapphiron.call, Option.some.injEq] at hc
    subst hc
    have : (s.MovementInform type id).events.phase = s.events.phase ∧
        (s.MovementInform type id)._delayedDrain = s._delayedDrain := by
      unfold boss_sapphiron.MovementInform
      split <;> exact ⟨rfl, rfl⟩
    simp only [this.1, this.2] at hp hf
    exact Or.inl ⟨hp, hf⟩
  | DoAction param =>
    simp only [boss_sapphiron.call, Option.some.injEq] at hc
    subst hc
    unfold boss_sapphiron.DoAction at hp hf
    split at hp
    · cases hp
    · rename_i hne
      simp only [hne, if_false] at hf
      exact Or.inl ⟨hp, hf⟩
  | Engine me =>
    simp only [boss_sapphiron.call, Option.some.injEq] at hc
    subst hc
    exact Or.inl ⟨hp, hf⟩

/-- A landing that casts life drain starts in Flight with a deferred drain. -/
theorem call_landCast {s : boss_sapphiron} {c : boss_sapphiron.Call}
    {out : boss_sapphiron.Outcome} (hw : WellTagged s.events)
    (hc : boss_sapphiron.call s c = some out) (hl : boss_sapphiron.isLandCast out = true) :
    s.events.phase = some Phases.PHASE_FLIGHT ∧ s._delayedDrain = true := by
  simp only [boss_sapphiron.isLandCast, Bool.and_eq_true, decide_eq_true_eq] at hl
  obtain ⟨hex, hcast⟩ := hl
  cases c with
  | UpdateAI diff env =>
    have hp : s.events.phase = some Phases.PHASE_FLIGHT :=
      (UpdateAI_tagged hw hc).2 .EVENT_LAND (by rw [hex]; simp) _ rfl
    refine ⟨hp, ?_⟩
    rcases UpdateAI_cases hc with rfl | ⟨hg, _⟩ | ⟨_, rfl⟩
    · simp at hex
    · rw [hp] at hg
      cases hg
    · rcases hx : (s.events.Update diff).ExecuteEvent with ⟨oid, em⟩
      cases oid with
      | none =>
        rw [airStep_none hx] at hex
        simp at hex
      | some id =>
        rw [airStep_some hx] at hex hcast
        simp only [List.cons.injEq, and_true] at hex
        subst hex
        cases hd : s._delayedDrain with
        | true => rfl
        | false =>
          have := ((airCase_LAND_drain env { s with events := em }).2 hd).1
          rw [List.count_eq_zero] at this
          exact absurd hcast this
  | JustEngagedWith env =>
    simp only [boss_sapphiron.call, Option.some.injEq] at hc
    subst hc
    simp at hex
  | DamageTaken damage =>
    simp only [boss_sapphiron.call, Option.some.injEq] at hc
    subst hc
    simp at hex
  | SpellHitTarget resistance spellId =>
    simp only [boss_sapphiron.call, Option.some.injEq] at hc
    subst hc
    simp at hex
  | MovementInform type id =>
    simp only [boss_sapphiron.call, Option.some.injEq] at hc
    subst hc
    simp at hex
  | DoAction param =>
    simp only [boss_sapphiron.call, Option.some.injEq] at hc
    subst hc
    simp at hex
  | Engine me =>
    simp only [boss_sapphiron.call, Option.some.injEq] at hc
    subst hc
    simp at hex

/-- A deferred drain stays deferred as long as the phase stays Flight. -/
theorem call_flag_persist {s : boss_sapphiron} {c : boss_sapphiron.Call}
    {out : boss_sapphiron.Outcome} (hc : boss_sapphiron.call s c = some out)
    (hp : s.events.phase = some Phases.PHASE_FLIGHT) (hf : s._delayedDrain = true) :
    out.state._delayedDrain = true := by
  cases c with
  | UpdateAI diff env =>
    rcases UpdateAI_cases hc with rfl | ⟨hg, _⟩ | ⟨_, rfl⟩
    · exact hf
    · rw [hp] at hg
      cases hg
    · rcases hx : (s.events.Update diff).ExecuteEvent with ⟨oid, em⟩
      cases oid with
      | none =>
        rw [airStep_none hx]
        exact hf
      | some id =>
        rw [airStep_some hx]
        exact airCase_flag_true (s := { s with events := em }) hf
  | JustEngagedWith env =>
    simp only [boss_sapphiron.call, Option.some.injEq] at hc
    subst hc
    exact hf
  | DamageTaken damage =>
    simp only [boss_sapphiron.call, Option.some.injEq] at hc
    subst hc
    unfold boss_sapphiron.DamageTaken
    split <;> exact hf
  | SpellHitTarget resistance spellId =>
    simp only [boss_sapphiron.call, Option.some.injEq] at hc
    subst hc
    unfold boss_sapphiron.SpellHitTarget
    cases resistance with
    | none => exact hf
    | some r =>
      simp only
      split
      · split <;> exact hf
      · exact hf
  | MovementInform type id =>
    simp only [boss_sapphiron.call, Option.some.injEq] at hc
    subst hc
    unfold boss_sapphiron.MovementInform
    split <;> exact hf
  | DoAction param =>
    simp only [boss_sapphiron.call, Option.some.injEq] at hc
    subst hc
    unfold boss_sapphiron.DoAction
    split <;> exact hf
  | Engine me =>
    simp only [boss_sapphiron.call, Option.some.injEq] at hc
    subst hc
    exact hf

theorem runCalls_cons {s : boss_sapphiron} {c : boss_sapphiron.Call}
    {cs : List boss_sapphiron.Call} {fin : boss_sapphiron} {outs : List boss_sapphiron.Outcome}
    (h : boss_sapphiron.runCalls s (c :: cs) = some (fin, outs)) :
    ∃ out outs', boss_sapphiron.call s c = some out ∧
      boss_sapphiron.runCalls out.state cs = some (fin, outs') ∧ outs = out :: outs' := by
  unfold boss_sapphiron.runCalls at h
  cases hc : boss_sapphiron.call s c with
  | none => rw [hc] at h; simp at h
  | some out =>
    rw [hc] at h
    simp only at h
    cases hr : boss_sapphiron.runCalls out.state cs with
    | none => rw [hr] at h; simp at h
    | some pr =>
      obtain ⟨f, os⟩ := pr
      rw [hr] at h
      simp only [Option.some.injEq, Prod.mk.injEq] at h
      obtain ⟨rfl, rfl⟩ := h
      exact ⟨out, os, rfl, hr, rfl⟩

/-- Every sequence of calls runs through: no call fails. -/
theorem runCalls_total : ∀ (cs : List boss_sapphiron.Call) (s : boss_sapphiron),
    ∃ fin outs, boss_sapphiron.runCalls s cs = some (fin, outs) := by
  intro cs
  induction cs with
  | nil => intro s; exact ⟨s, [], rfl⟩
  | cons c cs ih =>
    intro s
    have hcall : ∃ out, boss_sapphiron.call s c = some out := by
      cases c with
      | UpdateAI diff env => exact UpdateAI_total s diff env
      | _ => exact ⟨_, rfl⟩
    obtain ⟨out, hout⟩ := hcall
    obtain ⟨fin, outs, hr⟩ := ih out.state
    refine ⟨fin, out :: outs, ?_⟩
    unfold boss_sapphiron.runCalls
    rw [hout]
    simp only
    rw [hr]

/-- A sequence of calls made in a state of an encounter ends in a state of an encounter. -/
theorem Reachable_stateAfter : ∀ (cs : List boss_sapphiron.Call) (s : boss_sapphiron),
    boss_sapphiron.Reachable s → boss_sapphiron.Reachable (stateAfter s cs) := by
  intro cs
  induction cs with
  | nil => intro s hs; exact hs
  | cons c cs ih =>
    intro s hs
    obtain ⟨fin, outs, hr⟩ := runCalls_total (c :: cs) s
    obtain ⟨out, outs', hc, hr2, _⟩ := runCalls_cons hr
    have h2 := ih out.state (boss_sapphiron.Reachable.step s c out hs hc)
    have e1 : stateAfter s (c :: cs) = fin := by simp [stateAfter, hr]
    have e2 : stateAfter out.state cs = fin := by simp [stateAfter, hr2]
    rw [e1, ← e2]
    exact h2

/-- While every call leaves the phase at Flight, a deferred drain stays deferred. -/
theorem runCalls_flag_persist : ∀ (cs : List boss_sapphiron.Call) (s fin : boss_sapphiron)
    (outs : List boss_sapphiron.Outcome),
    s.events.phase = some Phases.PHASE_FLIGHT → s._delayedDrain = true →
    boss_sapphiron.runCalls s cs = some (fin, outs) →
    (∀ o ∈ outs, o.state.events.phase = some Phases.PHASE_FLIGHT) →
    fin.events.phase = some Phases.PHASE_FLIGHT ∧ fin._delayedDrain = true := by
  intro cs
  induction cs with
  | nil =>
    intro s fin outs hp hf hr _
    simp only [boss_sapphiron.runCalls, Option.some.injEq, Prod.mk.injEq] at hr
    rw [← hr.1]
    exact ⟨hp, hf⟩
  | cons c cs ih =>
    intro s fin outs hp hf hr hall
    obtain ⟨out, outs', hc, hr', rfl⟩ := runCalls_cons hr
    exact ih out.state fin outs' (hall out (List.mem_cons_self _ _))
      (call_flag_persist hc hp hf) hr' (fun o ho => hall o (List.mem_cons_of_mem _ ho))

/-- A landing that casts life drain is preceded, within the run, by an update that deferred a
drain, unless the run began in Flight with a drain already deferred. -/
theorem runCalls_landCast : ∀ (cs : List boss_sapphiron.Call) (s fin : boss_sapphiron)
    (outs : List boss_sapphiron.Outcome), WellTagged s.events →
    boss_sapphiron.runCalls s cs = some (fin, outs) →
    ∀ pre o post, outs = pre ++ o :: post → boss_sapphiron.isLandCast o = true →
      (s.events.phase = some Phases.PHASE_FLIGHT ∧ s._delayedDrain = true) ∨
        ∃ d ∈ pre, boss_sapphiron.isDeferral d = true := by
  intro cs
  induction cs with
  | nil =>
    intro s fin outs _ hr pre o post ho _
    simp only [boss_sapphiron.runCalls, Option.some.injEq, Prod.mk.injEq] at hr
    rw [← hr.2] at ho
    simp at ho
  | cons c cs ih =>
    intro s fin outs hw hr pre o post ho hl
    obtain ⟨out, outs', hc, hr', rfl⟩ := runCalls_cons hr
    cases pre with
    | nil =>
      simp only [List.nil_append, List.cons.injEq] at ho
      obtain ⟨rfl, _⟩ := ho
      exact Or.inl (call_landCast hw hc hl)
    | cons p pre' =>
      simp only [List.cons_append, List.cons.injEq] at ho
      obtain ⟨rfl, ho'⟩ := ho
      rcases ih out.state fin outs' (call_WellTagged hw hc) hr' pre' o post ho' hl with
        ⟨hp, hf⟩ | ⟨d, hd, hdd⟩
      · rcases call_flag_origin hc hp hf with h | h
        · exact Or.inl h
        · exact Or.inr ⟨out, List.mem_cons_self _ _, h⟩
      · exact Or.inr ⟨d, List.mem_cons_of_mem _ hd, hdd⟩

/-- Cutting a run at one of its outcomes: the call that produced the outcome and the run that
follows it. -/
theorem runCalls_split : ∀ (pre : List boss_sapphiron.Outcome) (s : boss_sapphiron)
    (cs : List boss_sapphiron.Call) (fin : boss_sapphiron) (o : boss_sapphiron.Outcome)
    (post : List boss_sapphiron.Outcome), WellTagged s.events →
    boss_sapphiron.runCalls s cs = some (fin, pre ++ o :: post) →
    ∃ s1 c cs2, WellTagged s1.events ∧ boss_sapphiron.call s1 c = some o ∧
      boss_sapphiron.runCalls o.state cs2 = some (fin, post) := by
  intro pre
  induction pre with
  | nil =>
    intro s cs fin o post hw hr
    cases cs with
    | nil => simp [boss_sapphiron.runCalls] at hr
    | cons c cs =>
      obtain ⟨out, outs', hc, hr', ho⟩ := runCalls_cons hr
      simp only [List.nil_append, List.cons.injEq] at ho
      obtain ⟨rfl, rfl⟩ := ho
      exact ⟨s, c, cs, hw, hc, hr'⟩
  | cons p pre ih =>
    intro s cs fin o post hw hr
    cases cs with
    | nil => simp [boss_sapphiron.runCalls] at hr
    | cons c cs =>
      obtain ⟨out, outs', hc, hr', ho⟩ := runCalls_cons hr
      simp only [List.cons_append, List.cons.injEq] at ho
      obtain ⟨rfl, rfl⟩ := ho
      exact ih _ cs fin o post (call_WellTagged hw hc) hr'

/-- A landing ends in the Ground phase. -/
theorem landCast_lands {s : boss_sapphiron} {c : boss_sapphiron.Call}
    {out : boss_sapphiron.Outcome} (hw : WellTagged s.events)
    (hc : boss_sapphiron.call s c = some out) (hl : boss_sapphiron.isLandCast out = true) :
    out.state.events.phase = some Phases.PHASE_GROUND := by
  obtain ⟨hp, _⟩ := call_landCast hw hc hl
  simp only [boss_sapphiron.isLandCast, Bool.and_eq_true, decide_eq_true_eq] at hl
  obtain ⟨hex, _⟩ := hl
  cases c with
  | UpdateAI diff env =>
    rcases UpdateAI_cases hc with rfl | ⟨hg, _⟩ | ⟨_, rfl⟩
    · simp at hex
    · rw [hp] at hg
      cases hg
    · rcases hx : (s.events.Update diff).ExecuteEvent with ⟨oid, em⟩
      cases oid with
      | none =>
        rw [airStep_none hx] at hex
        simp at hex
      | some id =>
        rw [airStep_some hx] at hex ⊢
        simp only [List.cons.injEq, and_true] at hex
        subst hex
        exact (airCase_LAND env _).1
  | _ =>
    simp only [boss_sapphiron.call, Option.some.injEq] at hc
    subst hc
    simp at hex

/-- C5: a life drain that comes due in Flight is deferred, not cast and not dropped.  (1) The
update that pops it in Flight casts nothing and sets the deferred-drain flag.  (2) The flag
stays set for as long as the phase stays Flight.  (3) The landing ends in Ground; with the flag
set it casts life drain exactly once and schedules exactly one life drain with a delay in
[22 s, 28 s]; without it, it casts none and schedules none.  (4) In a run that does not begin
in Flight with a drain already deferred, every landing that casts life drain comes after an
update of that run that deferred a drain.  (5) Between two landings that cast life drain there
is an update that deferred a drain: one deferral never causes a second cast. -/
theorem drain_deferral :
    (∀ (s : boss_sapphiron) (diff : Nat) (env : Env) (em : EventMap),
      s.events.phase = some Phases.PHASE_FLIGHT → env.updateVictim = true →
      (s.events.Update diff).ExecuteEvent = (some Events.EVENT_DRAIN, em) →
      s.UpdateAI diff env
        = some ⟨{ s with events := em, _delayedDrain := true }, [], [Events.EVENT_DRAIN]⟩) ∧
    (∀ (s fin : boss_sapphiron) (cs : List boss_sapphiron.Call)
      (outs : List boss_sapphiron.Outcome),
      s.events.phase = some Phases.PHASE_FLIGHT → s._delayedDrain = true →
      boss_sapphiron.runCalls s cs = some (fin, outs) →
      (∀ o ∈ outs, o.state.events.phase = some Phases.PHASE_FLIGHT) →
      fin.events.phase = some Phases.PHASE_FLIGHT ∧ fin._delayedDrain = true) ∧
    (∀ (s : boss_sapphiron) (diff : Nat) (env : Env) (em : EventMap),
      s.events.phase = some Phases.PHASE_FLIGHT → env.updateVictim = true →
      (s.events.Update diff).ExecuteEvent = (some Events.EVENT_LAND, em) →
      ∃ out, s.UpdateAI diff env = some out ∧ out.executed = [Events.EVENT_LAND] ∧
        out.state.events.phase = some Phases.PHASE_GROUND ∧
        (s._delayedDrain = true →
          out.effects.count (Effect.CastSpell .SPELL_LIFE_DRAIN .AOE) = 1 ∧
          ∃ d, 22000 ≤ d ∧ d ≤ 28000 ∧
            out.state.events.queue = em.queue ++
              [⟨.EVENT_DRAIN, d, none⟩, ⟨.EVENT_GROUND, 3500, some Phases.PHASE_GROUND⟩]) ∧
        (s._delayedDrain = false →
          out.effects.count (Effect.CastSpell .SPELL_LIFE_DRAIN .AOE) = 0 ∧
          out.state.events.queue = em.queue ++
            [⟨.EVENT_GROUND, 3500, some Phases.PHASE_GROUND⟩])) ∧
    (∀ (s fin : boss_sapphiron) (cs : List boss_sapphiron.Call)
      (outs pre post : List boss_sapphiron.Outcome) (o : boss_sapphiron.Outcome),
      WellTagged s.events →
      (s.events.phase = some Phases.PHASE_FLIGHT → s._delayedDrain = false) →
      boss_sapphiron.runCalls s cs = some (fin, outs) →
      outs = pre ++ o :: post → boss_sapphiron.isLandCast o = true →
      ∃ d ∈ pre, boss_sapphiron.isDeferral d = true) ∧
    (∀ (s fin : boss_sapphiron) (cs : List boss_sapphiron.Call)
      (pre mid post : List boss_sapphiron.Outcome) (o1 o2 : boss_sapphiron.Outcome),
      WellTagged s.events →
      boss_sapphiron.runCalls s cs = some (fin, pre ++ o1 :: (mid ++ o2 :: post)) →
      boss_sapphiron.isLandCast o1 = true → boss_sapphiron.isLandCast o2 = true →
      ∃ d ∈ mid, boss_sapphiron.isDeferral d = true) := by
  refine ⟨?_, ?_, ?_, ?_, ?_⟩
  · intro s diff env em hp hv hx
    rw [UpdateAI_air hp hv, airStep_some hx]
    rfl
  · intro s fin cs outs hp hf hr hall
    exact runCalls_flag_persist cs s fin outs hp hf hr hall
  · intro s diff env em hp hv hx
    refine ⟨_, UpdateAI_air hp hv, ?_⟩
    rw [airStep_some hx]
    refine ⟨rfl, (airCase_LAND env _).1, ?_, ?_⟩
    · intro hf
      obtain ⟨h1, h2⟩ := (airCase_LAND_drain env { s with events := em }).1 hf
      exact ⟨h1, _, (randtime_mem 22000 28000 (env.rand 0) (by norm_num)).1,
        (randtime_mem 22000 28000 (env.rand 0) (by norm_num)).2, h2⟩
    · intro hf
      exact (airCase_LAND_drain env { s with events := em }).2 hf
  · intro s fin cs outs pre post o hw hstart hr ho hl
    rcases runCalls_landCast cs s fin outs hw hr pre o post ho hl with ⟨hp, hf⟩ | h
    · rw [hstart hp] at hf
      cases hf
    · exact h
  · intro s fin cs pre mid post o1 o2 hw hr hl1 hl2
    obtain ⟨s1, c, cs2, hw1, hc1, hr2⟩ := runCalls_split pre s cs fin o1 _ hw hr
    have hg := landCast_lands hw1 hc1 hl1
    rcases runCalls_landCast cs2 o1.state fin _ (call_WellTagged hw1 hc1) hr2 mid o2 post rfl
      hl2 with ⟨hp, _⟩ | h
    · rw [hg] at hp
      cases hp
    · exact h

/-- Witness of C5: in Flight, with a life drain due in 1 s and the landing in 2 s, the update at
1 s defers the drain, and the update at 2 s lands, casts life drain once and schedules one
drain. -/
theorem drain_deferral_witness :
    drainBoss.UpdateAI 1000 sampleEnv = some ⟨deferredBoss, [], [Events.EVENT_DRAIN]⟩ ∧
    ∃ out, deferredBoss.UpdateAI 1000 sampleEnv = some out ∧
      out.executed = [Events.EVENT_LAND] ∧
      out.state.events.phase = some Phases.PHASE_GROUND ∧
      out.effects.count (Effect.CastSpell .SPELL_LIFE_DRAIN .AOE) = 1 ∧
      ∃ d, 22000 ≤ d ∧ d ≤ 28000 ∧
        out.state.events.queue =
          [⟨.EVENT_DRAIN, d, none⟩, ⟨.EVENT_GROUND, 3500, some Phases.PHASE_GROUND⟩] := by
  refine ⟨drain_deferral.1 drainBoss 1000 sampleEnv _ rfl rfl (by decide), ?_⟩
  obtain ⟨out, h1, h2, h3, h4, _⟩ := drain_deferral.2.2.1 deferredBoss 1000 sampleEnv
    ⟨some .PHASE_FLIGHT, [], some ⟨.EVENT_LAND, 0, some .PHASE_FLIGHT⟩⟩ rfl rfl (by decide)
  exact ⟨out, h1, h2, h3, (h4 rfl).1, (h4 rfl).2⟩

/-! ### Actions per update -/

/-- Counterexample to C7: 10 s into the encounter `busyCalls` the blizzard summon and the cleave
are both due, and the one update executes both. -/
theorem UpdateAI_two_actions :
    (boss_sapphiron.runCalls (freshBoss 1000) busyCalls).map (fun r => r.2.map (·.executed))
        = some [[], [Events.EVENT_CHECK_RESISTS], [Events.EVENT_CLEAVE], [Events.EVENT_TAIL],
            [Events.EVENT_BLIZZARD, Events.EVENT_CLEAVE]] ∧
      (busyBoss.UpdateAI 3000 sampleEnv).map (·.executed)
        = some [Events.EVENT_BLIZZARD, Events.EVENT_CLEAVE] ∧
      ¬ ∀ (s : boss_sapphiron) (diff : Nat) (env : Env) (out : boss_sapphiron.Outcome),
          s.UpdateAI diff env = some out → out.executed.length ≤ 1 := by
  refine ⟨by decide, by decide, ?_⟩
  intro h
  have h1 : (busyBoss.UpdateAI 3000 sampleEnv).map (·.executed)
      = some [Events.EVENT_BLIZZARD, Events.EVENT_CLEAVE] := by decide
  cases hu : busyBoss.UpdateAI 3000 sampleEnv with
  | none => rw [hu] at h1; simp at h1
  | some out =>
    have h2 := h busyBoss 3000 sampleEnv out hu
    rw [hu] at h1
    simp only [Option.map_some', Option.some.injEq] at h1
    rw [h1] at h2
    simp at h2

theorem groundCase_break_ids {env : Env} {id : Events} {s s2 : boss_sapphiron}
    {e : List Effect} (h : boss_sapphiron.groundCase env id s = .Break s2 e) :
    id = Events.EVENT_BLIZZARD ∨
      (id = Events.EVENT_FLIGHT ∧ HealthAbovePct s.me.health s.me.maxHealth 10 = false) ∨
      id ∈ [Events.EVENT_LIFTOFF, .EVENT_ICEBOLT, .EVENT_BREATH, .EVENT_EXPLOSION, .EVENT_LAND,
        .EVENT_BIRTH] := by
  rcases groundCase_break h with ⟨h1, _⟩ | ⟨_, _, _, h4⟩
  · exact Or.inl h1
  · cases id
    case EVENT_FLIGHT => exact Or.inr (Or.inl ⟨rfl, h4 rfl⟩)
    case EVENT_BLIZZARD => exact Or.inl rfl
    case EVENT_LIFTOFF => exact Or.inr (Or.inr (by simp))
    case EVENT_ICEBOLT => exact Or.inr (Or.inr (by simp))
    case EVENT_BREATH => exact Or.inr (Or.inr (by simp))
    case EVENT_EXPLOSION => exact Or.inr (Or.inr (by simp))
    case EVENT_LAND => exact Or.inr (Or.inr (by simp))
    case EVENT_BIRTH => exact Or.inr (Or.inr (by simp))
    all_goals simp [boss_sapphiron.groundCase, boss_sapphiron.CastDrain] at h

theorem groundCase_break_me {env : Env} {id : Events} {s s2 : boss_sapphiron}
    {e : List Effect} (h : boss_sapphiron.groundCase env id s = .Break s2 e) : s2.me = s.me := by
  rcases groundCase_break h with ⟨_, rfl, _⟩ | ⟨_, rfl, _, _⟩ <;> rfl

/-- In the Ground loop every action executed before the last one ended its case with
`break`. -/
theorem groundLoop_breaks (env : Env) (me : Creature) :
    ∀ fuel s eff ex out,
      (s.me = me ∧ ∀ id ∈ ex, id = Events.EVENT_BLIZZARD ∨
        (id = Events.EVENT_FLIGHT ∧ HealthAbovePct me.health me.maxHealth 10 = false) ∨
        id ∈ [Events.EVENT_LIFTOFF, .EVENT_ICEBOLT, .EVENT_BREATH, .EVENT_EXPLOSION,
          .EVENT_LAND, .EVENT_BIRTH]) →
      boss_sapphiron.groundLoop env fuel s eff ex = some out →
      ∀ id ∈ out.executed.dropLast, id = Events.EVENT_BLIZZARD ∨
        (id = Events.EVENT_FLIGHT ∧ HealthAbovePct me.health me.maxHealth 10 = false) ∨
        id ∈ [Events.EVENT_LIFTOFF, .EVENT_ICEBOLT, .EVENT_BREATH, .EVENT_EXPLOSION,
          .EVENT_LAND, .EVENT_BIRTH] := by
  apply groundLoop_rule env
  · rintro s eff ex ⟨_, hex⟩ _ id hid
    exact hex id (List.mem_of_mem_dropLast hid)
  · rintro s eff ex id em s2 e ⟨_, hex⟩ _ _ i hi
    simp only [List.dropLast_concat] at hi
    exact hex i hi
  · rintro s eff ex id em s2 e ⟨hme, hex⟩ _ hc
    refine ⟨(groundCase_break_me hc).trans hme, ?_⟩
    intro i hi
    rcases List.mem_append.mp hi with hi | hi
    · exact hex i hi
    · simp only [List.mem_singleton] at hi
      subst hi
      have := groundCase_break_ids hc
      simp only [hme] at this
      exact this

/-- C7, amended: every call of `UpdateAI` returns; outside the Ground phase it executes at most
one scheduled action; in the Ground phase every action executed before the last one of the call
is a blizzard summon, a flight deadline at health not above 10 %, or an action the Ground switch
has no case for (in an encounter, where the tags are in order, only the birth reveal), so that
at most one action of any other kind is executed per call. -/
theorem UpdateAI_actions (s : boss_sapphiron) (diff : Nat) (env : Env) :
    ∃ out, s.UpdateAI diff env = some out ∧
      (s.events.phase ≠ some Phases.PHASE_GROUND → out.executed.length ≤ 1) ∧
      (∀ id ∈ out.executed.dropLast, id = Events.EVENT_BLIZZARD ∨
        (id = Events.EVENT_FLIGHT ∧ HealthAbovePct s.me.health s.me.maxHealth 10 = false) ∨
        id ∈ [Events.EVENT_LIFTOFF, .EVENT_ICEBOLT, .EVENT_BREATH, .EVENT_EXPLOSION,
          .EVENT_LAND, .EVENT_BIRTH]) ∧
      (WellTagged s.events → ∀ id ∈ out.executed.dropLast,
        id = Events.EVENT_BLIZZARD ∨ id = Events.EVENT_FLIGHT ∨ id = Events.EVENT_BIRTH) := by
  obtain ⟨out, hout⟩ := UpdateAI_total s diff env
  have hlen : s.events.phase ≠ some Phases.PHASE_GROUND → out.executed.length ≤ 1 := by
    intro hp
    rcases UpdateAI_cases hout with rfl | ⟨hg, _⟩ | ⟨_, rfl⟩
    · simp
    · exact absurd hg hp
    · rcases hx : (s.events.Update diff).ExecuteEvent with ⟨oid, em⟩
      cases oid with
      | none => rw [airStep_none hx]; simp
      | some id => rw [airStep_some hx]; simp
  have hdrop : ∀ id ∈ out.executed.dropLast, id = Events.EVENT_BLIZZARD ∨
      (id = Events.EVENT_FLIGHT ∧ HealthAbovePct s.me.health s.me.maxHealth 10 = false) ∨
      id ∈ [Events.EVENT_LIFTOFF, .EVENT_ICEBOLT, .EVENT_BREATH, .EVENT_EXPLOSION,
        .EVENT_LAND, .EVENT_BIRTH] := by
    by_cases hp : s.events.phase = some Phases.PHASE_GROUND
    · rcases UpdateAI_cases hout with rfl | ⟨_, hl⟩ | ⟨hne, _⟩
      · simp
      · exact groundLoop_breaks env s.me _ { s with events := s.events.Update diff } [] [] out
          ⟨rfl, fun _ hi => absurd hi (List.not_mem_nil _)⟩ hl
      · exact absurd hp hne
    · intro id hid
      have := hlen hp
      have hnil : out.executed.dropLast = [] := by
        apply List.eq_nil_of_length_eq_zero
        rw [List.length_dropLast]
        omega
      rw [hnil] at hid
      simp at hid
  refine ⟨out, hout, hlen, hdrop, ?_⟩
  intro hw id hid
  have hmem : id ∈ out.executed := List.mem_of_mem_dropLast hid
  have htag := (UpdateAI_tagged hw hout).2 id hmem
  have hg : s.events.phase = some Phases.PHASE_GROUND := by
    by_contra hp
    have := hlen hp
    have hnil : out.executed.dropLast = [] := by
      apply List.eq_nil_of_length_eq_zero
      rw [List.length_dropLast]
      omega
    rw [hnil] at hid
    simp at hid
  rcases hdrop id hid with h | ⟨h, _⟩ | h
  · exact Or.inl h
  · exact Or.inr (Or.inl h)
  · simp only [List.mem_cons, List.mem_singleton, List.not_mem_nil, or_false] at h
    rcases h with rfl | rfl | rfl | rfl | rfl | rfl
    · have := htag _ rfl; rw [hg] at this; cases this
    · have := htag _ rfl; rw [hg] at this; cases this
    · have := htag _ rfl; rw [hg] at this; cases this
    · have := htag _ rfl; rw [hg] at this; cases this
    · have := htag _ rfl; rw [hg] at this; cases this
    · exact Or.inr (Or.inr rfl)

/-! ### The Hundred Club flag -/

theorem groundCase_club (env : Env) (id : Events) (s : boss_sapphiron) :
    (boss_sapphiron.groundCase env id s).state._canTheHundredClub = s._canTheHundredClub := by
  cases id
  case EVENT_FLIGHT =>
    by_cases hh : HealthAbovePct s.me.health s.me.maxHealth 10 = true
    · simp [boss_sapphiron.groundCase, hh, boss_sapphiron.SwitchResult.state]
    · simp [boss_sapphiron.groundCase, hh, boss_sapphiron.SwitchResult.state]
  case EVENT_GROUND =>
    simp only [boss_sapphiron.groundCase, boss_sapphiron.SwitchResult.state,
      boss_sapphiron.EnterPhaseGround]
    rfl
  all_goals rfl

theorem airCase_club (env : Env) (id : Events) (s : boss_sapphiron) :
    (boss_sapphiron.airCase env id s).state._canTheHundredClub = s._canTheHundredClub := by
  cases id
  case EVENT_ICEBOLT =>
    cases hg : s._iceboltTargets.getLast? with
    | none => simp [boss_sapphiron.airCase, hg, boss_sapphiron.SwitchResult.state]
    | some target =>
      by_cases he : s._iceboltTargets.dropLast.isEmpty = true
      · simp [boss_sapphiron.airCase, hg, he, boss_sapphiron.SwitchResult.state]
      · simp [boss_sapphiron.airCase, hg, he, boss_sapphiron.SwitchResult.state]
  case EVENT_LAND =>
    cases hd : s._delayedDrain <;>
      simp [boss_sapphiron.airCase, hd, boss_sapphiron.SwitchResult.state,
        boss_sapphiron.CastDrain]
  all_goals rfl

/-- The Ground loop does not write the flag. -/
theorem groundLoop_club (env : Env) (b : Bool) :
    ∀ fuel s eff ex out, s._canTheHundredClub = b →
      boss_sapphiron.groundLoop env fuel s eff ex = some out →
      out.state._canTheHundredClub = b := by
  apply groundLoop_rule env (fun s _ _ => s._canTheHundredClub = b)
  · intro s eff ex h _
    exact h
  · intro s eff ex id em s2 e h _ hc
    have := groundCase_club env id { s with events := em }
    rw [hc] at this
    exact this.trans h
  · intro s eff ex id em s2 e h _ hc
    have := groundCase_club env id { s with events := em }
    rw [hc] at this
    exact this.trans h

/-- A call never sets the flag: a cleared flag stays cleared. -/
theorem call_club {s : boss_sapphiron} {c : boss_sapphiron.Call}
    {out : boss_sapphiron.Outcome} (hc : boss_sapphiron.call s c = some out)
    (h : s._canTheHundredClub = false) : out.state._canTheHundredClub = false := by
  cases c with
  | UpdateAI diff env =>
    rcases UpdateAI_cases hc with rfl | ⟨_, hl⟩ | ⟨_, rfl⟩
    · exact h
    · exact groundLoop_club env false _ { s with events := s.events.Update diff } [] [] out h hl
    · rcases hx : (s.events.Update diff).ExecuteEvent with ⟨oid, em⟩
      cases oid with
      | none =>
        rw [airStep_none hx]
        exact h
      | some id =>
        rw [airStep_some hx]
        exact (airCase_club env id { s with events := em }).trans h
  | JustEngagedWith env =>
    simp only [boss_sapphiron.call, Option.some.injEq] at hc
    subst hc
    exact h
  | DamageTaken damage =>
    simp only [boss_sapphiron.call, Option.some.injEq] at hc
    subst hc
    unfold boss_sapphiron.DamageTaken
    split <;> exact h
  | SpellHitTarget resistance spellId =>
    simp only [boss_sapphiron.call, Option.some.injEq] at hc
    subst hc
    unfold boss_sapphiron.SpellHitTarget
    cases resistance with
    | none => exact h
    | some r =>
      simp only
      split
      · split
        · rfl
        · exact h
      · exact h
  | MovementInform type id =>
    simp only [boss_sapphiron.call, Option.some.injEq] at hc
    subst hc
    unfold boss_sapphiron.MovementInform
    split <;> exact h
  | DoAction param =>
    simp only [boss_sapphiron.call, Option.some.injEq] at hc
    subst hc
    unfold boss_sapphiron.DoAction
    split <;> exact h
  | Engine me =>
    simp only [boss_sapphiron.call, Option.some.injEq] at hc
    subst hc
    exact h

theorem runCalls_club : ∀ (cs : List boss_sapphiron.Call) (s fin : boss_sapphiron)
    (outs : List boss_sapphiron.Outcome), s._canTheHundredClub = false →
    boss_sapphiron.runCalls s cs = some (fin, outs) →
    fin._canTheHundredClub = false ∧ ∀ o ∈ outs, o.state._canTheHundredClub = false := by
  intro cs
  induction cs with
  | nil =>
    intro s fin outs h hr
    simp only [boss_sapphiron.runCalls, Option.some.injEq, Prod.mk.injEq] at hr
    obtain ⟨rfl, rfl⟩ := hr
    exact ⟨h, by simp⟩
  | cons c cs ih =>
    intro s fin outs h hr
    obtain ⟨out, outs', hc, hr', rfl⟩ := runCalls_cons hr
    have h1 := call_club hc h
    obtain ⟨h2, h3⟩ := ih out.state fin outs' h1 hr'
    refine ⟨h2, ?_⟩
    intro o ho
    rcases List.mem_cons.mp ho with rfl | ho
    · exact h1
    · exact h3 o ho

/-- C9: once the Hundred Club flag is cleared, no sequence of `JustEngagedWith`, `UpdateAI`,
`DamageTaken`, `SpellHitTarget`, `MovementInform` and `DoAction` calls (nor a change of the
creature by the engine) sets it again: the sequence runs through, and after every call of it
`GetData(DATA_THE_HUNDRED_CLUB)` returns 0. -/
theorem hundred_club_monotone (s : boss_sapphiron) (cs : List boss_sapphiron.Call)
    (h : s._canTheHundredClub = false) :
    ∃ fin outs, boss_sapphiron.runCalls s cs = some (fin, outs) ∧
      fin.GetData DATA_THE_HUNDRED_CLUB = 0 ∧
      ∀ o ∈ outs, o.state.GetData DATA_THE_HUNDRED_CLUB = 0 := by
  obtain ⟨fin, outs, hr⟩ := runCalls_total cs s
  obtain ⟨h1, h2⟩ := runCalls_club cs s fin outs h hr
  refine ⟨fin, outs, hr, ?_, ?_⟩
  · simp [boss_sapphiron.GetData, h1]
  · intro o ho
    simp [boss_sapphiron.GetData, h2 o ho]

/-- Witness of C9: a resistance check that hits a unit with 101 frost resistance clears the
flag, and the encounter `busyCalls` that follows never sets it again. -/
theorem hundred_club_monotone_witness :
    (engagedBoss.SpellHitTarget (some 101) 60539)._canTheHundredClub = false ∧
    ∃ fin outs, boss_sapphiron.runCalls (engagedBoss.SpellHitTarget (some 101) 60539) busyCalls
        = some (fin, outs) ∧
      fin.GetData DATA_THE_HUNDRED_CLUB = 0 ∧
      ∀ o ∈ outs, o.state.GetData DATA_THE_HUNDRED_CLUB = 0 :=
  ⟨by decide, hundred_club_monotone (engagedBoss.SpellHitTarget (some 101) 60539) busyCalls
    (by decide)⟩

/-! ### Ice blocks -/

theorem HandlePeriodic_recorded (a : spell_sapphiron_icebolt) (t : IceboltTick)
    (h : a._block.IsEmpty = false) : a.HandlePeriodic t = (a, none) := by
  simp [spell_sapphiron_icebolt.HandlePeriodic, h]

theorem HandlePeriodic_moving (a : spell_sapphiron_icebolt) (t : IceboltTick)
    (h : t.moving = true) : a.HandlePeriodic t = (a, none) := by
  unfold spell_sapphiron_icebolt.HandlePeriodic
  split
  · rfl
  · simp [h]

theorem runTicks_recorded : ∀ (ts : List IceboltTick) (a : spell_sapphiron_icebolt),
    a._block.IsEmpty = false → a.runTicks ts = (a, []) := by
  intro ts
  induction ts with
  | nil => intro a _; rfl
  | cons t ts ih =>
    intro a h
    simp only [spell_sapphiron_icebolt.runTicks, HandlePeriodic_recorded a t h, ih a h,
      List.append_nil]

theorem runTicks_append : ∀ (pre post : List IceboltTick) (a : spell_sapphiron_icebolt),
    a.runTicks (pre ++ post)
      = (((a.runTicks pre).1.runTicks post).1,
          (a.runTicks pre).2 ++ ((a.runTicks pre).1.runTicks post).2) := by
  intro pre
  induction pre with
  | nil => intro post a; rfl
  | cons t ts ih =>
    intro post a
    have h := ih post (a.HandlePeriodic t).1
    rw [List.cons_append]
    show (((a.HandlePeriodic t).1.runTicks (ts ++ post)).1,
        (match (a.HandlePeriodic t).2 with | some g => [g] | none => [])
          ++ ((a.HandlePeriodic t).1.runTicks (ts ++ post)).2) = _
    rw [h]
    simp only [spell_sapphiron_icebolt.runTicks, List.append_assoc]

/-- C10: over any sequence of periodic ticks of one icebolt application, in which every object
the engine creates has a non-empty identifier, at most one ice block is created; once a block
is recorded, a tick creates nothing and leaves the record alone, and so does every sequence of
later ticks; a tick while the bearer is moving creates nothing. -/
theorem icebolt_one_block (a : spell_sapphiron_icebolt) (ts : List IceboltTick)
    (hguid : ∀ t ∈ ts, t.summoned ≠ some ObjectGuid.Empty) :
    (a.runTicks ts).2.length ≤ 1 ∧
    (∀ (b : spell_sapphiron_icebolt) (t : IceboltTick), b._block.IsEmpty = false →
      b.HandlePeriodic t = (b, none)) ∧
    (∀ pre post, ts = pre ++ post → (a.runTicks pre).1._block.IsEmpty = false →
      (a.runTicks pre).1.runTicks post = ((a.runTicks pre).1, []) ∧
      (a.runTicks ts).1 = (a.runTicks pre).1 ∧ (a.runTicks ts).2 = (a.runTicks pre).2) ∧
    (∀ (b : spell_sapphiron_icebolt) (t : IceboltTick), t.moving = true →
      b.HandlePeriodic t = (b, none)) := by
  refine ⟨?_, HandlePeriodic_recorded, ?_, HandlePeriodic_moving⟩
  · clear * - hguid
    induction ts generalizing a with
    | nil => simp [spell_sapphiron_icebolt.runTicks]
    | cons t ts ih =>
      have hts : ∀ t ∈ ts, t.summoned ≠ some ObjectGuid.Empty :=
        fun x hx => hguid x (List.mem_cons_of_mem _ hx)
      by_cases he : a._block.IsEmpty = false
      · rw [runTicks_recorded _ a he]
        simp
      · by_cases hm : t.moving = true
        · simp only [spell_sapphiron_icebolt.runTicks, HandlePeriodic_moving a t hm,
            List.nil_append]
          exact ih a hts
        · cases hs : t.summoned with
          | none =>
            have hp : a.HandlePeriodic t = (a, none) := by
              simp [spell_sapphiron_icebolt.HandlePeriodic, hs]
            simp only [spell_sapphiron_icebolt.runTicks, hp, List.nil_append]
            exact ih a hts
          | some g =>
            have hg : g ≠ ObjectGuid.Empty := by
              intro hc
              exact hguid t (List.mem_cons_self _ _) (by rw [hs, hc])
            have hp : a.HandlePeriodic t = ({ a with _block := g }, some g) := by
              simp only [Bool.not_eq_false] at he
              simp [spell_sapphiron_icebolt.HandlePeriodic, hs, he, hm]
            have hrec : ({ a with _block := g } : spell_sapphiron_icebolt)._block.IsEmpty
                = false := by
              simp [ObjectGuid.IsEmpty, hg]
            simp only [spell_sapphiron_icebolt.runTicks, hp, runTicks_recorded _ _ hrec]
            simp
  · intro pre post hts hrec
    have h1 := runTicks_recorded post _ hrec
    refine ⟨h1, ?_, ?_⟩
    · rw [hts, runTicks_append, h1]
    · rw [hts, runTicks_append, h1]
      simp

/-- Witness of C10: a tick while moving, a tick on which the creation fails, and three ticks
that could each create a block: only the first of those does. -/
theorem icebolt_one_block_witness :
    (spell_sapphiron_icebolt.runTicks ⟨ObjectGuid.Empty⟩
        [⟨true, some ⟨2, 181247, 1⟩⟩, ⟨false, none⟩, ⟨false, some ⟨2, 181247, 2⟩⟩,
         ⟨false, some ⟨2, 181247, 3⟩⟩, ⟨true, some ⟨2, 181247, 4⟩⟩]).2.length ≤ 1 ∧
    (spell_sapphiron_icebolt.runTicks ⟨ObjectGuid.Empty⟩
        [⟨true, some ⟨2, 181247, 1⟩⟩, ⟨false, none⟩, ⟨false, some ⟨2, 181247, 2⟩⟩,
         ⟨false, some ⟨2, 181247, 3⟩⟩, ⟨true, some ⟨2, 181247, 4⟩⟩])
      = (⟨⟨2, 181247, 2⟩⟩, [⟨2, 181247, 2⟩]) :=
  ⟨(icebolt_one_block ⟨ObjectGuid.Empty⟩
      [⟨true, some ⟨2, 181247, 1⟩⟩, ⟨false, none⟩, ⟨false, some ⟨2, 181247, 2⟩⟩,
       ⟨false, some ⟨2, 181247, 3⟩⟩, ⟨true, some ⟨2, 181247, 4⟩⟩] (by decide)).1,
   by decide⟩

/-! ### Blizzard targets -/

theorem GetUnit_some {w : World} {g : ObjectGuid} {u : WorldUnit} (h : w.GetUnit g = some u) :
    u ∈ w.units ∧ u.guid = g := by
  unfold World.GetUnit at h
  refine ⟨List.mem_of_find?_eq_some h, ?_⟩
  have := List.find?_some h
  simpa using this

theorem find_unique : ∀ (l : List WorldUnit) (b : WorldUnit), (l.map (·.guid)).Nodup → b ∈ l →
    l.find? (fun u => u.guid == b.guid) = some b := by
  intro l
  induction l with
  | nil => intro b _ hb; simp at hb
  | cons x xs ih =>
    intro b hnd hb
    simp only [List.map_cons, List.nodup_cons] at hnd
    rcases List.mem_cons.mp hb with rfl | hb
    · simp
    · have hne : x.guid ≠ b.guid := by
        intro hc
        apply hnd.1
        rw [hc]
        exact List.mem_map_of_mem _ hb
      simp only [List.find?_cons]
      have : (x.guid == b.guid) = false := by simpa using hne
      rw [this]
      exact ih b hnd.2 hb

theorem SelectTarget_some {threat : List WorldUnit} {offset : Nat} {p : WorldUnit → Bool}
    {r : Nat} {u : WorldUnit} (h : SelectTarget threat offset p r = some u) :
    u ∈ threat ∧ p u = true := by
  unfold SelectTarget at h
  have hm : u ∈ (threat.drop offset).filter p := List.getElem?_mem h
  obtain ⟨h1, h2⟩ := List.mem_filter.mp hm
  exact ⟨List.mem_of_mem_drop h1, h2⟩

/-- What `boss_sapphiron::GetGUID` hands out: `ObjectGuid::Empty`, or the identifier of a
player on the threat list that no live blizzard holds as its target, provided every live
blizzard that holds a target is on the summon list. -/
theorem GetGUID_unclaimed (w : World) (r : Nat) (hu : UniqueGuids w)
    (hs : ∀ b ∈ w.units, b.isBlizzard = true →
      b.guid ∈ w.summons ∨ b.GetGUID DATA_BLIZZARD_TARGET = ObjectGuid.Empty)
    (hne : boss_sapphiron.GetGUID w DATA_BLIZZARD_TARGET r ≠ ObjectGuid.Empty) :
    (∃ p ∈ w.threat, p.isPlayer = true ∧
      p.guid = boss_sapphiron.GetGUID w DATA_BLIZZARD_TARGET r) ∧
    ∀ b ∈ w.units, b.isBlizzard = true →
      b.GetGUID DATA_BLIZZARD_TARGET ≠ boss_sapphiron.GetGUID w DATA_BLIZZARD_TARGET r := by
  unfold boss_sapphiron.GetGUID at hne ⊢
  simp only [if_true] at hne ⊢
  cases hsel : SelectTarget w.threat 1 (BlizzardTargetSelector (w.summons.filterMap
      fun summonGuid => if summonGuid.GetEntry = NPC_BLIZZARD then w.GetUnit summonGuid
        else none)) r with
  | none =>
    rw [hsel] at hne
    exact absurd rfl hne
  | some p =>
    rw [hsel] at hne
    simp only at hne ⊢
    obtain ⟨hp1, hp2⟩ := SelectTarget_some hsel
    unfold BlizzardTargetSelector at hp2
    by_cases hpl : p.isPlayer = true
    · simp only [hpl, Bool.not_true, Bool.false_eq_true, if_false] at hp2
      refine ⟨⟨p, hp1, hpl, rfl⟩, ?_⟩
      intro b hb hbl
      rcases hs b hb hbl with hin | hemp
      · intro hc
        have hany : (w.summons.filterMap fun summonGuid =>
            if summonGuid.GetEntry = NPC_BLIZZARD then w.GetUnit summonGuid else none).any
            (fun blizzard => blizzard.GetGUID DATA_BLIZZARD_TARGET == p.guid) = true := by
          rw [List.any_eq_true]
          refine ⟨b, ?_, by simp [hc]⟩
          rw [List.mem_filterMap]
          refine ⟨b.guid, hin, ?_⟩
          have he : b.guid.GetEntry = NPC_BLIZZARD := by
            simpa [WorldUnit.isBlizzard] using hbl
          rw [if_pos he]
          exact find_unique w.units b hu hb
        rw [hany] at hp2
        simp at hp2
      · rw [hemp]
        exact fun hc => hne hc.symm
    · simp [hpl] at hp2

theorem SetGUID_guid (u : WorldUnit) (g : ObjectGuid) (id : Int) :
    (u.SetGUID g id).guid = u.guid := by
  unfold WorldUnit.SetGUID
  split <;> rfl

theorem SetGUID_isBlizzard (u : WorldUnit) (g : ObjectGuid) (id : Int) :
    (u.SetGUID g id).isBlizzard = u.isBlizzard := by
  unfold WorldUnit.isBlizzard
  rw [SetGUID_guid]

theorem SetGUID_GetGUID (u : WorldUnit) (g : ObjectGuid) (h : u.isBlizzard = true) :
    (u.SetGUID g DATA_BLIZZARD_TARGET).GetGUID DATA_BLIZZARD_TARGET = g := by
  have h2 := SetGUID_isBlizzard u g DATA_BLIZZARD_TARGET
  rw [h] at h2
  simp only [WorldUnit.GetGUID, h2, if_true]
  simp [WorldUnit.SetGUID, h, npc_sapphiron_blizzard.SetGUID, npc_sapphiron_blizzard.GetGUID]

/-- A unit after `SetTarget`, in terms of the unit it was. -/
theorem mem_SetTarget {w : World} {me g : ObjectGuid} {v : WorldUnit}
    (hv : v ∈ (w.SetTarget me g).units) :
    ∃ u ∈ w.units, v.guid = u.guid ∧ v.isBlizzard = u.isBlizzard ∧
      (v.isBlizzard = true → u.guid = me → v.GetGUID DATA_BLIZZARD_TARGET = g) ∧
      (u.guid ≠ me → v = u) := by
  simp only [World.SetTarget, List.mem_map] at hv
  obtain ⟨u, hu, rfl⟩ := hv
  refine ⟨u, hu, ?_⟩
  by_cases hme : u.guid = me
  · rw [if_pos hme]
    refine ⟨?_, ?_, ?_, fun h => absurd hme h⟩
    · rw [SetGUID_guid]
    · exact SetGUID_isBlizzard _ _ _
    · intro hb _
      rw [SetGUID_isBlizzard] at hb
      exact SetGUID_GetGUID u g hb
  · rw [if_neg hme]
    exact ⟨rfl, rfl, fun _ h => absurd h hme, fun _ => rfl⟩

theorem guids_SetTarget (w : World) (me g : ObjectGuid) :
    (w.SetTarget me g).units.map (·.guid) = w.units.map (·.guid) := by
  simp only [World.SetTarget, List.map_map]
  apply List.map_congr_left
  intro u _
  simp only [Function.comp]
  split
  · exact SetGUID_guid _ _ _
  · rfl

/-- Giving the blizzard `me` a target that no other live blizzard holds keeps the targets
exclusive; so does clearing its target. -/
theorem Exclusive_SetTarget {w : World} {me g : ObjectGuid} (he : Exclusive w)
    (hg : g ≠ ObjectGuid.Empty → ∀ b ∈ w.units, b.isBlizzard = true → b.guid ≠ me →
      b.GetGUID DATA_BLIZZARD_TARGET ≠ g) :
    Exclusive (w.SetTarget me g) := by
  intro u' hu' v' hv' hbu hbv hne hnem
  obtain ⟨u, hu, hgu, hiu, htu, hsu⟩ := mem_SetTarget hu'
  obtain ⟨v, hv, hgv, hiv, htv, hsv⟩ := mem_SetTarget hv'
  by_cases hmu : u.guid = me
  · have hmv : v.guid ≠ me := by
      intro hc
      apply hne
      rw [hgu, hgv, hmu, hc]
    have hv2 := hsv hmv
    subst hv2
    have hug := htu hbu hmu
    rw [hug] at hnem ⊢
    exact fun hc => hg hnem v' hv hbv hmv hc.symm
  · have hu2 := hsu hmu
    subst hu2
    by_cases hmv : v.guid = me
    · rw [htv hbv hmv]
      by_cases hge : g = ObjectGuid.Empty
      · rw [hge]
        exact hnem
      · exact hg hge u' hu hbu hmu
    · have hv2 := hsv hmv
      subst hv2
      exact he u' hu v' hv hbu hbv hne hnem

/-- The retargeting step the two spell scripts share: clear the target of `me`, ask the boss
for a target, and store what it hands out.  Exclusivity holds after the clearing and after the
storing, provided every other live blizzard is on the summon list. -/
theorem Exclusive_retarget (w : World) (me : ObjectGuid) (r : Nat)
    (hu : UniqueGuids w) (he : Exclusive w)
    (hs : ∀ b ∈ w.units, b.isBlizzard = true → b.guid ∈ w.summons ∨ b.guid = me) :
    Exclusive (w.SetTarget me ObjectGuid.Empty) ∧
    ∀ nt, (w.SetTarget me ObjectGuid.Empty).GetUnit
        (boss_sapphiron.GetGUID (w.SetTarget me ObjectGuid.Empty) DATA_BLIZZARD_TARGET r)
          = some nt →
      Exclusive ((w.SetTarget me ObjectGuid.Empty).SetTarget me nt.guid) := by
  have he1 : Exclusive (w.SetTarget me ObjectGuid.Empty) :=
    Exclusive_SetTarget he (fun h => absurd rfl h)
  refine ⟨he1, ?_⟩
  intro nt hnt
  obtain ⟨_, hntg⟩ := GetUnit_some hnt
  apply Exclusive_SetTarget he1
  intro hne b hb hbl _
  rw [hntg] at hne ⊢
  have hu1 : UniqueGuids (w.SetTarget me ObjectGuid.Empty) := by
    unfold UniqueGuids
    rw [guids_SetTarget]
    exact hu
  have hs1 : ∀ b ∈ (w.SetTarget me ObjectGuid.Empty).units, b.isBlizzard = true →
      b.guid ∈ (w.SetTarget me ObjectGuid.Empty).summons ∨
        b.GetGUID DATA_BLIZZARD_TARGET = ObjectGuid.Empty := by
    intro b' hb' hbl'
    obtain ⟨b0, hb0, hg0, hi0, ht0, _⟩ := mem_SetTarget hb'
    rcases hs b0 hb0 (hi0 ▸ hbl') with h | h
    · exact Or.inl (hg0 ▸ h)
    · exact Or.inr (ht0 hbl' h)
  exact (GetGUID_unclaimed _ r hu1 hs1 hne).2 b hb hbl

/-- C8: blizzard target exclusivity is kept by the retargeting operations.  The boss's
`GetGUID(DATA_BLIZZARD_TARGET)` hands out only `ObjectGuid::Empty` or a player that no live
blizzard of the summon list holds as its target.  Hence, when the live units have distinct
identifiers, all live blizzards are in the boss's summon list and no two of them hold the same
non-empty target, still no two do after `HandlePeriodic` retargets a blizzard, and after
`HandleDummy` summons a blizzard (one with a fresh identifier), whether or not the boss has put
the new blizzard on its summon list by then. -/
theorem blizzard_exclusive (w : World) (r : Nat)
    (hu : UniqueGuids w) (hs : AllSummoned w) (he : Exclusive w) :
    ((boss_sapphiron.GetGUID w DATA_BLIZZARD_TARGET r ≠ ObjectGuid.Empty →
      (∃ p ∈ w.threat, p.isPlayer = true ∧
        p.guid = boss_sapphiron.GetGUID w DATA_BLIZZARD_TARGET r) ∧
      ∀ b ∈ w.units, b.isBlizzard = true →
        b.GetGUID DATA_BLIZZARD_TARGET ≠ boss_sapphiron.GetGUID w DATA_BLIZZARD_TARGET r)) ∧
    (∀ (me : ObjectGuid) (hasOwner : Bool),
      Exclusive (spell_sapphiron_change_blizzard_target.HandlePeriodic w me hasOwner r).1) ∧
    (∀ (target summoned : Option ObjectGuid) (registered casterIsCreature : Bool),
      (∀ g, summoned = some g → g ∉ w.units.map (·.guid)) →
      Exclusive (spell_sapphiron_summon_blizzard.HandleDummy w target summoned registered
        casterIsCreature r).1) := by
  refine ⟨?_, ?_, ?_⟩
  · intro hne
    exact GetGUID_unclaimed w r hu (fun b hb hbl => Or.inl (hs b hb hbl)) hne
  · intro me hasOwner
    unfold spell_sapphiron_change_blizzard_target.HandlePeriodic
    cases hasOwner with
    | false => exact he
    | true =>
      obtain ⟨h1, h2⟩ := Exclusive_retarget w me r hu he
        (fun b hb hbl => Or.inl (hs b hb hbl))
      simp only [if_true]
      cases hg : (w.SetTarget me ObjectGuid.Empty).GetUnit
          (boss_sapphiron.GetGUID (w.SetTarget me ObjectGuid.Empty) DATA_BLIZZARD_TARGET r) with
      | none => exact h1
      | some nt => exact h2 nt hg
  · intro target summoned registered casterIsCreature hfresh
    unfold spell_sapphiron_summon_blizzard.HandleDummy
    cases target with
    | none => exact he
    | some target =>
      cases summoned with
      | none => exact he
      | some blizzard =>
        have hnew : (⟨blizzard, false, ⟨ObjectGuid.Empty⟩⟩ : WorldUnit).GetGUID
            DATA_BLIZZARD_TARGET = ObjectGuid.Empty := by
          simp only [WorldUnit.GetGUID, npc_sapphiron_blizzard.GetGUID]
          split <;> simp
        have he0 : Exclusive
            { w with
              units := w.units ++ [⟨blizzard, false, ⟨ObjectGuid.Empty⟩⟩],
              summons := if registered = true then w.summons ++ [blizzard] else w.summons } := by
          intro u hu' v hv' hbu hbv hne hnem
          simp only [List.mem_append, List.mem_singleton] at hu' hv'
          rcases hu' with hu' | rfl
          · rcases hv' with hv' | rfl
            · exact he u hu' v hv' hbu hbv hne hnem
            · rw [hnew]
              exact hnem
          · exact absurd hnew hnem
        have hu0 : UniqueGuids
            { w with
              units := w.units ++ [⟨blizzard, false, ⟨ObjectGuid.Empty⟩⟩],
              summons := if registered = true then w.summons ++ [blizzard] else w.summons } := by
          unfold UniqueGuids
          simp only [List.map_append, List.map_cons, List.map_nil]
          rw [List.nodup_append]
          refine ⟨hu, by simp, ?_⟩
          intro a ha hb
          simp only [List.mem_singleton] at hb
          subst hb
          exact hfresh _ rfl ha
        have hs0 : ∀ b ∈ (w.units ++ [(⟨blizzard, false, ⟨ObjectGuid.Empty⟩⟩ : WorldUnit)]),
            b.isBlizzard = true →
            b.guid ∈ (if registered = true then w.summons ++ [blizzard] else w.summons) ∨
              b.guid = blizzard := by
          intro b hb hbl
          simp only [List.mem_append, List.mem_singleton] at hb
          rcases hb with hb | rfl
          · left
            have := hs b hb hbl
            split
            · exact List.mem_append.mpr (Or.inl this)
            · exact this
          · exact Or.inr rfl
        simp only
        cases casterIsCreature with
        | false => exact he0
        | true =>
          obtain ⟨h1, h2⟩ := Exclusive_retarget _ blizzard r hu0 he0 hs0
          simp only [if_true]
          split
          · rename_i nt hg
            exact h2 nt hg
          · exact h1

/-- Witness of C8: in `sampleWorld` the blizzard follows the second player; retargeting it and
summoning a second blizzard both leave the targets exclusive (the new blizzard gets the third
player, the only one past the tank that is not taken). -/
theorem blizzard_exclusive_witness :
    (UniqueGuids sampleWorld ∧ AllSummoned sampleWorld ∧ Exclusive sampleWorld) ∧
    Exclusive (spell_sapphiron_change_blizzard_target.HandlePeriodic sampleWorld
      (blizzardGuid 1) true 1).1 ∧
    Exclusive (spell_sapphiron_summon_blizzard.HandleDummy sampleWorld (some (playerGuid 1))
      (some (blizzardGuid 2)) true true 0).1 ∧
    boss_sapphiron.GetGUID sampleWorld DATA_BLIZZARD_TARGET 0 = playerGuid 3 :=
  ⟨by decide,
   (blizzard_exclusive sampleWorld 1 (by decide) (by decide) (by decide)).2.1 _ _,
   (blizzard_exclusive sampleWorld 0 (by decide) (by decide) (by decide)).2.2 _ _ _ _
     (fun g hg => by cases hg; decide),
   by decide⟩

/-! ### Ground entry -/

/-- An update in Ground, with a victim, whose first due action ends its case with `return`. -/
theorem UpdateAI_ground_return {s s2 : boss_sapphiron} {diff : Nat} {env : Env}
    {em : EventMap} {id : Events} {e : List Effect}
    (hp : s.events.phase = some Phases.PHASE_GROUND) (hv : env.updateVictim = true)
    (hx : (s.events.Update diff).ExecuteEvent = (some id, em))
    (hc : boss_sapphiron.groundCase env id { s with events := em } = .Return s2 e) :
    s.UpdateAI diff env = some ⟨s2, e, [id]⟩ := by
  have hU : s.UpdateAI diff env = boss_sapphiron.groundLoop env
      ((s.events.Update diff).queue.length + 1) { s with events := s.events.Update diff }
      [] [] := by
    simp [boss_sapphiron.UpdateAI, EventMap.IsInPhase, EventMap.Update, hp, hv]
  rw [hU]
  simp [boss_sapphiron.groundLoop, hx, hc]

/-- C11: every Ground entry appends, to whatever is queued, a cleave with a delay in
[5 s, 15 s], a tail sweep with a delay in [7 s, 10 s] and a blizzard summon with a delay in
[5 s, 10 s], all tagged Ground, and leaves the phase alone.  The initial entry (the one
`JustEngagedWith` makes) appends after them a life drain with a delay in [22 s, 28 s] and the
flight deadline at 48.5 s; a repeat entry (the one the `EVENT_GROUND` case makes) appends only
the flight deadline, at exactly 60 s, and no life drain. -/
theorem EnterPhaseGround_schedule (s : boss_sapphiron) (env : Env) :
    ∃ cleave tail blizzard drain : Nat,
      (5000 ≤ cleave ∧ cleave ≤ 15000) ∧ (7000 ≤ tail ∧ tail ≤ 10000) ∧
      (5000 ≤ blizzard ∧ blizzard ≤ 10000) ∧ (22000 ≤ drain ∧ drain ≤ 28000) ∧
      (s.EnterPhaseGround env true).events.queue = s.events.queue ++
        [⟨Events.EVENT_CLEAVE, cleave, some Phases.PHASE_GROUND⟩,
         ⟨Events.EVENT_TAIL, tail, some Phases.PHASE_GROUND⟩,
         ⟨Events.EVENT_BLIZZARD, blizzard, some Phases.PHASE_GROUND⟩,
         ⟨Events.EVENT_DRAIN, drain, none⟩,
         ⟨Events.EVENT_FLIGHT, 48500, some Phases.PHASE_GROUND⟩] ∧
      (s.EnterPhaseGround env false).events.queue = s.events.queue ++
        [⟨Events.EVENT_CLEAVE, cleave, some Phases.PHASE_GROUND⟩,
         ⟨Events.EVENT_TAIL, tail, some Phases.PHASE_GROUND⟩,
         ⟨Events.EVENT_BLIZZARD, blizzard, some Phases.PHASE_GROUND⟩,
         ⟨Events.EVENT_FLIGHT, 60000, some Phases.PHASE_GROUND⟩] ∧
      (s.EnterPhaseGround env false).events.pending .EVENT_DRAIN
        = s.events.pending .EVENT_DRAIN ∧
      (∀ initial, (s.EnterPhaseGround env initial).events.phase = s.events.phase) ∧
      (s.JustEngagedWith env).1 = boss_sapphiron.EnterPhaseGround
        { s with events := ((s.events.SetPhase .PHASE_GROUND).ScheduleEvent
            .EVENT_CHECK_RESISTS 0 none).ScheduleEvent .EVENT_BERSERK 900000 none } env true ∧
      boss_sapphiron.groundCase env .EVENT_GROUND s = .Return (s.EnterPhaseGround env false) [] ∧
      (∀ (diff : Nat) (em : EventMap), s.events.phase = some Phases.PHASE_GROUND →
        env.updateVictim = true →
        (s.events.Update diff).ExecuteEvent = (some Events.EVENT_GROUND, em) →
        s.UpdateAI diff env = some
          ⟨boss_sapphiron.EnterPhaseGround { s with events := em } env false, [],
            [Events.EVENT_GROUND]⟩) := by
  refine ⟨randtime 5000 15000 (env.rand 0), randtime 7000 10000 (env.rand 1),
    randtime 5000 10000 (env.rand 2), randtime 22000 28000 (env.rand 3),
    randtime_mem _ _ _ (by norm_num), randtime_mem _ _ _ (by norm_num),
    randtime_mem _ _ _ (by norm_num), randtime_mem _ _ _ (by norm_num), ?_, ?_, ?_, ?_, rfl, rfl,
    ?_⟩
  · simp [boss_sapphiron.EnterPhaseGround, EventMap.ScheduleEvent]
  · simp [boss_sapphiron.EnterPhaseGround, EventMap.ScheduleEvent]
  · simp [boss_sapphiron.EnterPhaseGround, pending_ScheduleEvent]
  · intro initial
    cases initial <;> rfl
  · intro diff em hp hv hx
    exact UpdateAI_ground_return hp hv hx rfl

/-- Witness of C11: the ground re-entry 3.5 s after a landing schedules cleave, tail sweep,
blizzard summon and the flight deadline at 60 s, keeps the berserk that was queued, and
schedules no life drain. -/
theorem EnterPhaseGround_schedule_witness :
    (landedBoss.UpdateAI 3500 sampleEnv).map (fun o => (o.state.events.queue, o.executed))
      = some ([⟨.EVENT_BERSERK, 696500, none⟩,
               ⟨.EVENT_CLEAVE, 5000, some .PHASE_GROUND⟩,
               ⟨.EVENT_TAIL, 7000, some .PHASE_GROUND⟩,
               ⟨.EVENT_BLIZZARD, 5000, some .PHASE_GROUND⟩,
               ⟨.EVENT_FLIGHT, 60000, some .PHASE_GROUND⟩], [Events.EVENT_GROUND]) := by
  obtain ⟨_, _, _, _, _, _, _, _, _, _, _, _, _, _, h⟩ :=
    EnterPhaseGround_schedule landedBoss sampleEnv
  rw [h 3500 ⟨some .PHASE_GROUND, [⟨.EVENT_BERSERK, 696500, none⟩],
    some ⟨.EVENT_GROUND, 0, some .PHASE_GROUND⟩⟩ rfl rfl (by decide)]
  decide

/-! ### Berserk -/

theorem groundCase_pending_berserk {env : Env} {id : Events} {s : boss_sapphiron}
    (hl : ∃ a, s.events.lastEvent = some a ∧ a.id = id) :
    (boss_sapphiron.groundCase env id s).state.events.pending .EVENT_BERSERK
      = s.events.pending .EVENT_BERSERK := by
  obtain ⟨a, hla, hid⟩ := hl
  cases id
  case EVENT_CHECK_RESISTS =>
    simp [boss_sapphiron.groundCase, boss_sapphiron.SwitchResult.state,
      pending_Repeat _ a _ _ hla, hid]
  case EVENT_GROUND =>
    simp [boss_sapphiron.groundCase, boss_sapphiron.SwitchResult.state,
      boss_sapphiron.EnterPhaseGround, pending_ScheduleEvent]
  case EVENT_FLIGHT =>
    by_cases hh : HealthAbovePct s.me.health s.me.maxHealth 10 = true
    · simp [boss_sapphiron.groundCase, hh, boss_sapphiron.SwitchResult.state, pending_SetPhase]
    · simp [boss_sapphiron.groundCase, hh, boss_sapphiron.SwitchResult.state]
  all_goals
    simp [boss_sapphiron.groundCase, boss_sapphiron.SwitchResult.state,
      boss_sapphiron.CastDrain, pending_ScheduleEvent]

theorem airCase_pending_berserk {env : Env} {id : Events} {s : boss_sapphiron}
    (hl : ∃ a, s.events.lastEvent = some a ∧ a.id = id) :
    (boss_sapphiron.airCase env id s).state.events.pending .EVENT_BERSERK
      = s.events.pending .EVENT_BERSERK := by
  obtain ⟨a, hla, hid⟩ := hl
  cases id
  case EVENT_CHECK_RESISTS =>
    simp [boss_sapphiron.airCase, boss_sapphiron.SwitchResult.state,
      pending_Repeat _ a _ _ hla, hid]
  case EVENT_ICEBOLT =>
    cases hg : s._iceboltTargets.getLast? with
    | none =>
      simp [boss_sapphiron.airCase, hg, boss_sapphiron.SwitchResult.state,
        pending_ScheduleEvent]
    | some target =>
      by_cases he : s._iceboltTargets.dropLast.isEmpty = true
      · simp [boss_sapphiron.airCase, hg, he, boss_sapphiron.SwitchResult.state,
          pending_ScheduleEvent]
      · simp [boss_sapphiron.airCase, hg, he, boss_sapphiron.SwitchResult.state,
          pending_Repeat _ a _ _ hla, hid]
  case EVENT_LAND =>
    cases hd : s._delayedDrain <;>
      simp [boss_sapphiron.airCase, hd, boss_sapphiron.SwitchResult.state,
        boss_sapphiron.CastDrain, pending_ScheduleEvent, pending_SetPhase]
  all_goals
    simp [boss_sapphiron.airCase, boss_sapphiron.SwitchResult.state, pending_ScheduleEvent]

/-- The cases outside Ground neither cast Berserk nor announce the enrage. -/
theorem airCase_no_berserk (env : Env) (id : Events) (s : boss_sapphiron) :
    Effect.CastSpell .SPELL_BERSERK .Self ∉ (boss_sapphiron.airCase env id s).effects ∧
      Effect.Talk .EMOTE_ENRAGE ∉ (boss_sapphiron.airCase env id s).effects := by
  cases id
  case EVENT_ICEBOLT =>
    cases hg : s._iceboltTargets.getLast? with
    | none => simp [boss_sapphiron.airCase, hg, boss_sapphiron.SwitchResult.effects]
    | some target =>
      by_cases he : s._iceboltTargets.dropLast.isEmpty = true <;>
        by_cases ha : env.alivePlayer target = true <;>
        simp [boss_sapphiron.airCase, hg, he, ha, boss_sapphiron.SwitchResult.effects]
  case EVENT_LAND =>
    cases hd : s._delayedDrain <;>
      simp [boss_sapphiron.airCase, hd, boss_sapphiron.SwitchResult.effects,
        boss_sapphiron.CastDrain]
  all_goals simp [boss_sapphiron.airCase, boss_sapphiron.SwitchResult.effects]

/-- In the Ground switch only the berserk case casts Berserk or announces the enrage. -/
theorem groundCase_berserk (env : Env) (id : Events) (s : boss_sapphiron)
    (h : Effect.CastSpell .SPELL_BERSERK .Self ∈ (boss_sapphiron.groundCase env id s).effects ∨
      Effect.Talk .EMOTE_ENRAGE ∈ (boss_sapphiron.groundCase env id s).effects) :
    id = Events.EVENT_BERSERK := by
  cases id
  case EVENT_BERSERK => rfl
  case EVENT_FLIGHT =>
    by_cases hh : HealthAbovePct s.me.health s.me.maxHealth 10 = true <;>
      simp [boss_sapphiron.groundCase, hh, boss_sapphiron.SwitchResult.effects] at h
  all_goals
    simp [boss_sapphiron.groundCase, boss_sapphiron.SwitchResult.effects,
      boss_sapphiron.CastDrain] at h

/-- The Ground loop casts Berserk or announces the enrage only when it executes the berserk
action. -/
theorem groundLoop_berserk (env : Env) :
    ∀ fuel s eff ex out,
      ((Effect.CastSpell .SPELL_BERSERK .Self ∈ eff ∨ Effect.Talk .EMOTE_ENRAGE ∈ eff) →
        Events.EVENT_BERSERK ∈ ex) →
      boss_sapphiron.groundLoop env fuel s eff ex = some out →
      ((Effect.CastSpell .SPELL_BERSERK .Self ∈ out.effects ∨
          Effect.Talk .EMOTE_ENRAGE ∈ out.effects) →
        Events.EVENT_BERSERK ∈ out.executed) := by
  have hstep : ∀ (s2 : boss_sapphiron) (eff e : List Effect) (ex : List Events) (id : Events)
      (r : boss_sapphiron.SwitchResult),
      ((Effect.CastSpell .SPELL_BERSERK .Self ∈ eff ∨ Effect.Talk .EMOTE_ENRAGE ∈ eff) →
        Events.EVENT_BERSERK ∈ ex) →
      boss_sapphiron.groundCase env id s2 = r → r.effects = e →
      ((Effect.CastSpell .SPELL_BERSERK .Self ∈ eff ++ e ∨
          Effect.Talk .EMOTE_ENRAGE ∈ eff ++ e) →
        Events.EVENT_BERSERK ∈ ex ++ [id]) := by
    intro s2 eff e ex id r hI hr he h
    simp only [List.mem_append] at h ⊢
    rcases h with (h | h) | (h | h)
    · exact Or.inl (hI (Or.inl h))
    · right
      rw [← he, ← hr] at h
      simp [groundCase_berserk env id s2 (Or.inl h)]
    · exact Or.inl (hI (Or.inr h))
    · right
      rw [← he, ← hr] at h
      simp [groundCase_berserk env id s2 (Or.inr h)]
  apply groundLoop_rule env (fun _ eff ex =>
    (Effect.CastSpell .SPELL_BERSERK .Self ∈ eff ∨ Effect.Talk .EMOTE_ENRAGE ∈ eff) →
      Events.EVENT_BERSERK ∈ ex)
  · intro s eff ex hI _ h
    apply hI
    simpa using h
  · intro s eff ex id em s2 e hI _ hc
    exact hstep _ eff e ex id _ hI hc rfl
  · intro s eff ex id em s2 e hI _ hc
    exact hstep _ eff e ex id _ hI hc rfl

/-- An update casts Berserk or announces the enrage only in the Ground phase, and only by
executing the berserk action. -/
theorem UpdateAI_berserk {s : boss_sapphiron} {diff : Nat} {env : Env}
    {out : boss_sapphiron.Outcome} (hu : s.UpdateAI diff env = some out)
    (h : Effect.CastSpell .SPELL_BERSERK .Self ∈ out.effects ∨
      Effect.Talk .EMOTE_ENRAGE ∈ out.effects) :
    s.events.phase = some Phases.PHASE_GROUND ∧ Events.EVENT_BERSERK ∈ out.executed := by
  rcases UpdateAI_cases hu with rfl | ⟨hg, hl⟩ | ⟨_, rfl⟩
  · simp at h
  · exact ⟨hg, groundLoop_berserk env _ { s with events := s.events.Update diff } [] [] out
      (fun hc => by simp at hc) hl h⟩
  · rcases hx : (s.events.Update diff).ExecuteEvent with ⟨oid, em⟩
    cases oid with
    | none =>
      rw [airStep_none hx] at h
      simp at h
    | some id =>
      rw [airStep_some hx] at h
      obtain ⟨h1, h2⟩ := airCase_no_berserk env id { s with events := em }
      rcases h with h | h
      · exact absurd h h1
      · exact absurd h h2

/-- The Ground loop schedules no berserk. -/
theorem groundLoop_pending_berserk (env : Env) (N : Nat) :
    ∀ fuel s eff ex out, s.events.pending .EVENT_BERSERK ≤ N →
      boss_sapphiron.groundLoop env fuel s eff ex = some out →
      out.state.events.pending .EVENT_BERSERK ≤ N := by
  have hstep : ∀ (s : boss_sapphiron) (id : Events) (em : EventMap),
      s.events.pending .EVENT_BERSERK ≤ N → s.events.ExecuteEvent = (some id, em) →
      (boss_sapphiron.groundCase env id { s with events := em }).state.events.pending
        .EVENT_BERSERK ≤ N := by
    intro s id em hI hx
    obtain ⟨a, hla, hid, _⟩ := lastEvent_pop hx
    rw [groundCase_pending_berserk (s := { s with events := em }) ⟨a, hla, hid⟩]
    have := pending_pop hx .EVENT_BERSERK
    dsimp only
    omega
  apply groundLoop_rule env (fun s _ _ => s.events.pending .EVENT_BERSERK ≤ N)
  · intro s eff ex hI _
    exact hI
  · intro s eff ex id em s2 e hI hx hc
    have := hstep s id em hI hx
    rw [hc] at this
    exact this
  · intro s eff ex id em s2 e hI hx hc
    have := hstep s id em hI hx
    rw [hc] at this
    exact this

/-- No call but the engage call schedules a berserk. -/
theorem call_pending_berserk {s : boss_sapphiron} {c : boss_sapphiron.Call}
    {out : boss_sapphiron.Outcome} (hc : boss_sapphiron.call s c = some out)
    (hne : c.engages = false) :
    out.state.events.pending .EVENT_BERSERK ≤ s.events.pending .EVENT_BERSERK := by
  cases c with
  | UpdateAI diff env =>
    rcases UpdateAI_cases hc with rfl | ⟨_, hl⟩ | ⟨_, rfl⟩
    · exact le_of_eq (pending_Update _ _ _)
    · exact groundLoop_pending_berserk env _ _ { s with events := s.events.Update diff } [] []
        out (le_of_eq (pending_Update _ _ _)) hl
    · rcases hx : (s.events.Update diff).ExecuteEvent with ⟨oid, em⟩
      cases oid with
      | none =>
        rw [airStep_none hx]
        exact le_of_eq (pending_Update _ _ _)
      | some id =>
        rw [airStep_some hx]
        obtain ⟨a, hla, hid, _⟩ := lastEvent_pop hx
        have h1 := @airCase_pending_berserk env id { s with events := em } ⟨a, hla, hid⟩
        have h2 := pending_pop hx .EVENT_BERSERK
        rw [pending_Update] at h2
        dsimp only at h1 ⊢
        omega
  | JustEngagedWith env => simp [boss_sapphiron.Call.engages] at hne
  | DamageTaken damage =>
    simp only [boss_sapphiron.call, Option.some.injEq] at hc
    subst hc
    unfold boss_sapphiron.DamageTaken
    split <;> exact le_refl _
  | SpellHitTarget resistance spellId =>
    simp only [boss_sapphiron.call, Option.some.injEq] at hc
    subst hc
    unfold boss_sapphiron.SpellHitTarget
    cases resistance with
    | none => exact le_refl _
    | some r =>
      simp only
      split
      · split <;> exact le_refl _
      · exact le_refl _
  | MovementInform type id =>
    simp only [boss_sapphiron.call, Option.some.injEq] at hc
    subst hc
    unfold boss_sapphiron.MovementInform
    split
    · simp [pending_ScheduleEvent]
    · exact le_refl _
  | DoAction param =>
    simp only [boss_sapphiron.call, Option.some.injEq] at hc
    subst hc
    unfold boss_sapphiron.DoAction
    split
    · simp [pending_ScheduleEvent, pending_SetPhase]
    · exact le_refl _
  | Engine me =>
    simp only [boss_sapphiron.call, Option.some.injEq] at hc
    subst hc
    exact le_refl _

theorem runCalls_pending_berserk : ∀ (cs : List boss_sapphiron.Call) (s fin : boss_sapphiron)
    (outs : List boss_sapphiron.Outcome), (∀ c ∈ cs, c.engages = false) →
    boss_sapphiron.runCalls s cs = some (fin, outs) →
    fin.events.pending .EVENT_BERSERK ≤ s.events.pending .EVENT_BERSERK := by
  intro cs
  induction cs with
  | nil =>
    intro s fin outs _ hr
    simp only [boss_sapphiron.runCalls, Option.some.injEq, Prod.mk.injEq] at hr
    rw [← hr.1]
  | cons c cs ih =>
    intro s fin outs hall hr
    obtain ⟨out, outs', hc, hr', _⟩ := runCalls_cons hr
    have h1 := call_pending_berserk hc (hall c (List.mem_cons_self _ _))
    have h2 := ih out.state fin outs' (fun x hx => hall x (List.mem_cons_of_mem _ hx)) hr'
    omega

/-- C12: Berserk is cast, and the enrage announced, only by the berserk case of the Ground
branch.  When an update outside the Ground phase pops the berserk action, the action is
consumed: the update casts nothing, announces nothing and schedules nothing, so one berserk
fewer is queued; and since no call but the engage call schedules a berserk, no later call that
is not an engage call brings it back: the deadline is lost. -/
theorem berserk_outside_ground (s : boss_sapphiron) (diff : Nat) (env : Env) (em : EventMap)
    (hp : s.events.phase ≠ some Phases.PHASE_GROUND)
    (hrun : s.events.phase = some Phases.PHASE_BIRTH ∨ env.updateVictim = true)
    (hpop : (s.events.Update diff).ExecuteEvent = (some Events.EVENT_BERSERK, em)) :
    s.UpdateAI diff env = some ⟨{ s with events := em }, [], [Events.EVENT_BERSERK]⟩ ∧
    em.queue.length + 1 = s.events.queue.length ∧
    em.pending .EVENT_BERSERK + 1 = s.events.pending .EVENT_BERSERK ∧
    (∀ (cs : List boss_sapphiron.Call) (fin : boss_sapphiron)
      (outs : List boss_sapphiron.Outcome), (∀ c ∈ cs, c.engages = false) →
      boss_sapphiron.runCalls { s with events := em } cs = some (fin, outs) →
      fin.events.pending .EVENT_BERSERK < s.events.pending .EVENT_BERSERK) ∧
    (∀ (s2 : boss_sapphiron) (diff2 : Nat) (env2 : Env) (out : boss_sapphiron.Outcome),
      s2.UpdateAI diff2 env2 = some out →
      (Effect.CastSpell .SPELL_BERSERK .Self ∈ out.effects ∨
        Effect.Talk .EMOTE_ENRAGE ∈ out.effects) →
      s2.events.phase = some Phases.PHASE_GROUND ∧ Events.EVENT_BERSERK ∈ out.executed) := by
  have hpend := pending_pop hpop .EVENT_BERSERK
  rw [pending_Update] at hpend
  simp only [if_true] at hpend
  refine ⟨?_, ?_, hpend, ?_, ?_⟩
  · have hg : (s.events.Update diff).IsInPhase .PHASE_GROUND = false := by
      simpa [EventMap.IsInPhase, EventMap.Update] using hp
    have hb : (!(s.events.Update diff).IsInPhase .PHASE_BIRTH && !env.updateVictim) = false := by
      rcases hrun with h | h
      · simp [EventMap.IsInPhase, EventMap.Update, h]
      · simp [h]
    unfold boss_sapphiron.UpdateAI
    simp only [hb, hg, Bool.false_eq_true, if_false]
    rw [airStep_some hpop]
    rfl
  · obtain ⟨a, l1, l2, _, hq, _, _, _, rfl⟩ := ExecuteEvent_some hpop
    have hlen : (s.events.Update diff).queue.length = s.events.queue.length := by
      simp [EventMap.Update]
    rw [← hlen, hq]
    simp
    omega
  · intro cs fin outs hall hr
    have := runCalls_pending_berserk cs _ fin outs hall hr
    dsimp only at this
    omega
  · intro s2 diff2 env2 out hu h
    exact UpdateAI_berserk hu h

/-- Witness of C12: in Flight, the update on which the berserk comes due consumes it: nothing
is cast, nothing announced, and only the landing stays queued. -/
theorem berserk_outside_ground_witness :
    berserkBoss.UpdateAI 1000 sampleEnv = some
      ⟨{ berserkBoss with events :=
          ⟨some .PHASE_FLIGHT, [⟨.EVENT_LAND, 1000, some .PHASE_FLIGHT⟩],
            some ⟨.EVENT_BERSERK, 0, none⟩⟩ }, [], [Events.EVENT_BERSERK]⟩ ∧
    (0 : Nat) + 1 = berserkBoss.events.pending .EVENT_BERSERK :=
  ⟨(berserk_outside_ground berserkBoss 1000 sampleEnv
      ⟨some .PHASE_FLIGHT, [⟨.EVENT_LAND, 1000, some .PHASE_FLIGHT⟩],
        some ⟨.EVENT_BERSERK, 0, none⟩⟩ (by decide) (Or.inr rfl) (by decide)).1,
   (berserk_outside_ground berserkBoss 1000 sampleEnv
      ⟨some .PHASE_FLIGHT, [⟨.EVENT_LAND, 1000, some .PHASE_FLIGHT⟩],
        some ⟨.EVENT_BERSERK, 0, none⟩⟩ (by decide) (Or.inr rfl) (by decide)).2.2.1⟩

/-! ### The flight deadline -/

/-- The Ground loop at health not above 10 %: the phase stays Ground, no movement is ordered,
no liftoff is added, and, short of a ground re-entry, no flight deadline is added: every
deadline executed is one deadline fewer in the queue. -/
theorem groundLoop_low (env : Env) (L F : Nat) :
    ∀ fuel s eff ex out,
      (s.events.phase = some Phases.PHASE_GROUND ∧
        HealthAbovePct s.me.health s.me.maxHealth 10 = false ∧
        (∀ p, Effect.MovePoint p ∉ eff) ∧
        s.events.pending .EVENT_LIFTOFF ≤ L ∧
        (Events.EVENT_GROUND ∉ ex →
          s.events.pending .EVENT_FLIGHT + ex.count .EVENT_FLIGHT ≤ F)) →
      boss_sapphiron.groundLoop env fuel s eff ex = some out →
      (out.state.events.phase = some Phases.PHASE_GROUND ∧
        (∀ p, Effect.MovePoint p ∉ out.effects) ∧
        out.state.events.pending .EVENT_LIFTOFF ≤ L ∧
        (Events.EVENT_GROUND ∉ out.executed →
          out.state.events.pending .EVENT_FLIGHT + out.executed.count .EVENT_FLIGHT ≤ F)) := by
  apply groundLoop_rule env
  · rintro s eff ex ⟨hp, _, hm, hl, hf⟩ _
    refine ⟨hp, ?_, hl, hf⟩
    intro p hmem
    rcases List.mem_append.mp hmem with h | h
    · exact hm p h
    · simp at h
  · rintro s eff ex id em s2 e ⟨hp, hlow, hm, hl, hf⟩ hx hc
    obtain ⟨a, hla, hid, _⟩ := lastEvent_pop hx
    obtain ⟨h1, h2, h3, h4⟩ := groundCase_return_low (s := { s with events := em }) hlow
      ⟨a, hla, hid⟩ hc
    have hpl := pending_pop hx .EVENT_LIFTOFF
    have hpf := pending_pop hx .EVENT_FLIGHT
    refine ⟨by rw [h1]; exact (phase_pop hx).trans hp, ?_, ?_, ?_⟩
    · intro p hmem
      rcases List.mem_append.mp hmem with h | h
      · exact hm p h
      · exact h2 p h
    · dsimp only at h3 ⊢
      omega
    · intro hg
      have hne : id ≠ Events.EVENT_GROUND := by
        intro hc2
        exact hg (List.mem_append.mpr (Or.inr (by simp [hc2])))
      have hg2 : Events.EVENT_GROUND ∉ ex := fun hc2 => hg (List.mem_append.mpr (Or.inl hc2))
      have h5 := h4 hne
      have h6 := hf hg2
      dsimp only at h5 ⊢
      by_cases hfl : id = Events.EVENT_FLIGHT
      · subst hfl
        simp only [if_true] at hpf
        simp only [List.count_append, List.count_singleton_self]
        omega
      · simp only [if_neg hfl] at hpf
        have hc0 : List.count Events.EVENT_FLIGHT [id] = 0 :=
          List.count_eq_zero.mpr (by simpa using fun h => hfl h.symm)
        simp only [List.count_append, hc0]
        omega
  · rintro s eff ex id em s2 e ⟨hp, hlow, hm, hl, hf⟩ hx hc
    have hpl := pending_pop hx .EVENT_LIFTOFF
    have hpf := pending_pop hx .EVENT_FLIGHT
    have hph := (phase_pop hx).trans hp
    have hcount : (ex ++ [id]).count Events.EVENT_FLIGHT
        = ex.count .EVENT_FLIGHT + (if id = Events.EVENT_FLIGHT then 1 else 0) := by
      by_cases hfl : id = Events.EVENT_FLIGHT
      · subst hfl
        simp [List.count_append]
      · have hc0 : List.count Events.EVENT_FLIGHT [id] = 0 :=
          List.count_eq_zero.mpr (by simpa using fun h => hfl h.symm)
        simp [List.count_append, hc0, hfl]
    rcases groundCase_break hc with ⟨hb, rfl, rfl⟩ | ⟨_, rfl, rfl, _⟩
    · subst hb
      refine ⟨hph, hlow, ?_, ?_, ?_⟩
      · intro p hmem
        rcases List.mem_append.mp hmem with h | h
        · exact hm p h
        · simp at h
      · simp only [pending_ScheduleEvent]
        simp
        omega
      · intro hg
        have hg2 : Events.EVENT_GROUND ∉ ex := fun hc2 => hg (List.mem_append.mpr (Or.inl hc2))
        have := hf hg2
        rw [hcount]
        simp only [pending_ScheduleEvent]
        simp at hpf ⊢
        omega
    · refine ⟨hph, hlow, by simpa using hm, by dsimp only; omega, ?_⟩
      intro hg
      have hg2 : Events.EVENT_GROUND ∉ ex := fun hc2 => hg (List.mem_append.mpr (Or.inl hc2))
      have := hf hg2
      rw [hcount]
      dsimp only
      omega

/-- The Ground loop at health above 10 %: the flight deadline never ends with `break`, so the
first deadline executed ends the call: in the Flight phase, passive, with no drain deferred, and
with `AttackStop` and the move to point 1 as the last orders, the only move ordered. -/
theorem groundLoop_high (env : Env) (me : Creature)
    (hh : HealthAbovePct me.health me.maxHealth 10 = true) :
    ∀ fuel s eff ex out,
      (s.me = me ∧ Events.EVENT_FLIGHT ∉ ex ∧ ∀ p, Effect.MovePoint p ∉ eff) →
      boss_sapphiron.groundLoop env fuel s eff ex = some out →
      (Events.EVENT_FLIGHT ∈ out.executed →
        out.state.events.phase = some Phases.PHASE_FLIGHT ∧
        out.state.me = { me with reactState := .REACT_PASSIVE } ∧
        out.state._delayedDrain = false ∧
        (∃ pre, out.executed = pre ++ [Events.EVENT_FLIGHT] ∧ Events.EVENT_FLIGHT ∉ pre) ∧
        ∃ pre, out.effects = pre ++ [Effect.AttackStop, Effect.MovePoint 1] ∧
          ∀ p, Effect.MovePoint p ∉ pre) := by
  apply groundLoop_rule env
  · rintro s eff ex ⟨_, hex, _⟩ _ hmem
    exact absurd hmem hex
  · rintro s eff ex id em s2 e ⟨hme, hex, hm⟩ hx hc hmem
    have hid : id = Events.EVENT_FLIGHT := by
      rcases List.mem_append.mp hmem with h | h
      · exact absurd h hex
      · exact (List.mem_singleton.mp h).symm
    subst hid
    have hh2 : HealthAbovePct s.me.health s.me.maxHealth 10 = true := by rw [hme]; exact hh
    simp only [boss_sapphiron.groundCase, hh2, if_true] at hc
    injection hc with h1 h2
    subst h1
    subst h2
    refine ⟨rfl, by simp only [hme], rfl, ⟨ex, rfl, hex⟩, ⟨eff, rfl, hm⟩⟩
  · rintro s eff ex id em s2 e ⟨hme, hex, hm⟩ hx hc
    rcases groundCase_break hc with ⟨hb, rfl, rfl⟩ | ⟨hb, rfl, rfl, hlow⟩
    · subst hb
      refine ⟨hme, ?_, ?_⟩
      · intro hmem
        rcases List.mem_append.mp hmem with h | h
        · exact hex h
        · simp at h
      · intro p hmem
        rcases List.mem_append.mp hmem with h | h
        · exact hm p h
        · simp at h
    · refine ⟨hme, ?_, by simpa using hm⟩
      intro hmem
      rcases List.mem_append.mp hmem with h | h
      · exact hex h
      · simp only [List.mem_singleton] at h
        have hl := hlow h.symm
        simp only [hme, hh] at hl
        cases hl

/-- C3: every update that executes the flight deadline (`EVENT_FLIGHT`) in the Ground phase,
whether the deadline is the first action of the call or follows a blizzard summon in the same
call.  With health strictly above 10 % of the maximum the update ends in the Flight phase with
the creature passive, no drain deferred, the deadline as the last action executed, and
`AttackStop` and the move to point 1 as the last orders, the only move ordered.  With health at
or below 10 % the update ends in the Ground phase with no move ordered and no liftoff added,
and, unless a ground re-entry ran in the same update, with fewer flight deadlines queued than
before. -/
theorem flight_deadline (s : boss_sapphiron) (diff : Nat) (env : Env)
    (hphase : s.events.phase = some Phases.PHASE_GROUND) :
    ∃ out, s.UpdateAI diff env = some out ∧
      (Events.EVENT_FLIGHT ∈ out.executed →
        (10 * s.me.maxHealth < s.me.health * 100 →
          out.state.events.phase = some Phases.PHASE_FLIGHT ∧
          out.state.me = { s.me with reactState := .REACT_PASSIVE } ∧
          out.state._delayedDrain = false ∧
          (∃ pre, out.executed = pre ++ [Events.EVENT_FLIGHT] ∧ Events.EVENT_FLIGHT ∉ pre) ∧
          ∃ pre, out.effects = pre ++ [Effect.AttackStop, Effect.MovePoint 1] ∧
            ∀ p, Effect.MovePoint p ∉ pre) ∧
        (s.me.health * 100 ≤ 10 * s.me.maxHealth →
          out.state.events.phase = some Phases.PHASE_GROUND ∧
          (∀ p, Effect.MovePoint p ∉ out.effects) ∧
          out.state.events.pending .EVENT_LIFTOFF ≤ s.events.pending .EVENT_LIFTOFF ∧
          (Events.EVENT_GROUND ∉ out.executed →
            out.state.events.pending .EVENT_FLIGHT < s.events.pending .EVENT_FLIGHT))) := by
  obtain ⟨out, hout⟩ := UpdateAI_total s diff env
  refine ⟨out, hout, ?_⟩
  intro hmem
  rcases UpdateAI_cases hout with rfl | ⟨_, hl⟩ | ⟨hne, _⟩
  · simp at hmem
  · constructor
    · intro hh
      have hab : HealthAbovePct s.me.health s.me.maxHealth 10 = true := by
        simp [HealthAbovePct, hh]
      exact groundLoop_high env s.me hab _ { s with events := s.events.Update diff } [] [] out
        ⟨rfl, List.not_mem_nil _, fun _ h => absurd h (List.not_mem_nil _)⟩ hl hmem
    · intro hh
      have hlow : HealthAbovePct s.me.health s.me.maxHealth 10 = false := by
        simp [HealthAbovePct]; omega
      obtain ⟨h1, h2, h3, h4⟩ := groundLoop_low env (s.events.pending .EVENT_LIFTOFF)
        (s.events.pending .EVENT_FLIGHT) _ { s with events := s.events.Update diff } [] [] out
        ⟨hphase, hlow, fun _ h => absurd h (List.not_mem_nil _),
          by simp only [pending_Update]; exact le_refl _,
          fun _ => by simp only [pending_Update, List.count_nil]; exact le_refl _⟩ hl
      refine ⟨h1, h2, h3, ?_⟩
      intro hg
      have h5 := h4 hg
      have hpos : 0 < out.executed.count Events.EVENT_FLIGHT := List.count_pos_iff.mpr hmem
      omega
  · exact absurd hphase hne

/-- Witness of C3: in the second Ground phase of the encounter `cycleCalls` one update executes
a blizzard summon and then the flight deadline.  At full health it takes off; with the health
at 5 % it stays in the Ground phase, orders no move, and leaves no flight deadline and no
liftoff queued. -/
theorem flight_deadline_witness :
    (boss_sapphiron.Reachable cycleBoss ∧
      (cycleBoss.UpdateAI 0 raidEnv).map (fun o => (o.executed, o.effects))
        = some ([Events.EVENT_BLIZZARD, Events.EVENT_FLIGHT],
            [Effect.CastSpell .SPELL_SUMMON_BLIZZARD .AOE, Effect.AttackStop,
              Effect.MovePoint 1]) ∧
      ∃ out, cycleBoss.UpdateAI 0 raidEnv = some out ∧
        out.state.events.phase = some Phases.PHASE_FLIGHT ∧
        out.state.me.reactState = ReactStates.REACT_PASSIVE ∧
        ∃ pre, out.effects = pre ++ [Effect.AttackStop, Effect.MovePoint 1]) ∧
    (boss_sapphiron.Reachable weakBoss ∧
      (weakBoss.UpdateAI 0 raidEnv).map (fun o => (o.executed, o.effects))
        = some ([Events.EVENT_BLIZZARD, Events.EVENT_FLIGHT],
            [Effect.CastSpell .SPELL_SUMMON_BLIZZARD .AOE, Effect.DoMeleeAttackIfReady]) ∧
      ∃ out, weakBoss.UpdateAI 0 raidEnv = some out ∧
        out.state.events.phase = some Phases.PHASE_GROUND ∧
        (∀ p, Effect.MovePoint p ∉ out.effects) ∧
        out.state.events.pending .EVENT_LIFTOFF = 0 ∧
        out.state.events.pending .EVENT_FLIGHT = 0) := by
  have hc : (cycleBoss.UpdateAI 0 raidEnv).map (fun o => (o.executed, o.effects))
      = some ([Events.EVENT_BLIZZARD, Events.EVENT_FLIGHT],
          [Effect.CastSpell .SPELL_SUMMON_BLIZZARD .AOE, Effect.AttackStop,
            Effect.MovePoint 1]) := by decide
  have hw : (weakBoss.UpdateAI 0 raidEnv).map (fun o => (o.executed, o.effects))
      = some ([Events.EVENT_BLIZZARD, Events.EVENT_FLIGHT],
          [Effect.CastSpell .SPELL_SUMMON_BLIZZARD .AOE, Effect.DoMeleeAttackIfReady]) := by
    decide
  refine ⟨⟨Reachable_stateAfter _ _ (boss_sapphiron.Reachable.fresh _), hc, ?_⟩,
    ⟨Reachable_stateAfter _ _ (boss_sapphiron.Reachable.fresh _), hw, ?_⟩⟩
  · obtain ⟨out, hout, h⟩ := flight_deadline cycleBoss 0 raidEnv (by decide)
    rw [hout] at hc
    simp only [Option.map_some', Option.some.injEq, Prod.mk.injEq] at hc
    obtain ⟨h1, h2, h3, _, h5⟩ := (h (by rw [hc.1]; decide)).1 (by decide)
    obtain ⟨pre, hpre, _⟩ := h5
    exact ⟨out, hout, h1, by rw [h2], pre, hpre⟩
  · obtain ⟨out, hout, h⟩ := flight_deadline weakBoss 0 raidEnv (by decide)
    rw [hout] at hw
    simp only [Option.map_some', Option.some.injEq, Prod.mk.injEq] at hw
    obtain ⟨h1, h2, h3, h4⟩ := (h (by rw [hw.1]; decide)).2 (by decide)
    have h5 := h4 (by rw [hw.1]; decide)
    have h6 : weakBoss.events.pending .EVENT_LIFTOFF = 0 := by decide
    have h7 : weakBoss.events.pending .EVENT_FLIGHT = 1 := by decide
    exact ⟨out, hout, h1, h2, by omega, by omega⟩

/-! ### Phase tags along an encounter -/

/-- Witness of C6, in three states of an encounter.  Seven seconds into the encounter
`busyCalls`, in the Ground phase, an update executes the Ground-tagged blizzard summon and
cleave.  At the home point of the encounter `liftoffCalls`, in the Flight phase, the
Ground-tagged cleave, tail sweep and blizzard summon are due and stay queued while the update
executes the Flight-tagged liftoff.  And engaged anew after the liftoff, in the Ground phase,
the Flight-tagged icebolt comes due and stays queued while the update executes the Ground-tagged
cleave. -/
theorem phase_invariant_witness :
    (boss_sapphiron.Reachable busyBoss ∧
      busyBoss.events.phase = some Phases.PHASE_GROUND ∧
      ∃ out, busyBoss.UpdateAI 3000 sampleEnv = some out ∧
        out.executed = [Events.EVENT_BLIZZARD, Events.EVENT_CLEAVE] ∧
        (∀ id ∈ out.executed, ∀ Q, expectedTag id = some Q → busyBoss.events.phase = some Q) ∧
        ∀ id ∈ out.executed,
          id ∈ [Events.EVENT_CLEAVE, .EVENT_TAIL, .EVENT_BLIZZARD, .EVENT_FLIGHT, .EVENT_GROUND] →
          busyBoss.events.phase = some Phases.PHASE_GROUND) ∧
    (boss_sapphiron.Reachable arrivedBoss ∧
      arrivedBoss.events.phase = some Phases.PHASE_FLIGHT ∧
      ∃ out, arrivedBoss.UpdateAI 0 raidEnv = some out ∧
        out.executed = [Events.EVENT_LIFTOFF] ∧
        out.state.events.queue.filter (fun a => decide (a.delay = 0))
          = [⟨.EVENT_CLEAVE, 0, some .PHASE_GROUND⟩, ⟨.EVENT_TAIL, 0, some .PHASE_GROUND⟩,
             ⟨.EVENT_BLIZZARD, 0, some .PHASE_GROUND⟩] ∧
        (∀ id ∈ out.executed, ∀ Q, expectedTag id = some Q → arrivedBoss.events.phase = some Q) ∧
        ∀ id ∈ out.executed,
          id ∈ [Events.EVENT_LIFTOFF, .EVENT_ICEBOLT, .EVENT_BREATH, .EVENT_EXPLOSION,
            .EVENT_LAND] →
          arrivedBoss.events.phase = some Phases.PHASE_FLIGHT) ∧
    (boss_sapphiron.Reachable reengagedBoss ∧
      reengagedBoss.events.phase = some Phases.PHASE_GROUND ∧
      ∃ out, reengagedBoss.UpdateAI 7000 raidEnv = some out ∧
        out.executed = [Events.EVENT_CLEAVE] ∧
        ⟨.EVENT_ICEBOLT, 0, some .PHASE_FLIGHT⟩ ∈ out.state.events.queue ∧
        (∀ id ∈ out.executed, ∀ Q, expectedTag id = some Q →
          reengagedBoss.events.phase = some Q) ∧
        ∀ id ∈ out.executed,
          id ∈ [Events.EVENT_CLEAVE, .EVENT_TAIL, .EVENT_BLIZZARD, .EVENT_FLIGHT, .EVENT_GROUND] →
          reengagedBoss.events.phase = some Phases.PHASE_GROUND) := by
  have hb : boss_sapphiron.Reachable busyBoss :=
    Reachable_stateAfter busyCalls.dropLast _ (boss_sapphiron.Reachable.fresh _)
  have hl : boss_sapphiron.Reachable arrivedBoss :=
    Reachable_stateAfter _ _ (boss_sapphiron.Reachable.fresh _)
  have hr : boss_sapphiron.Reachable reengagedBoss :=
    Reachable_stateAfter _ _ (boss_sapphiron.Reachable.fresh _)
  have e1 : (busyBoss.UpdateAI 3000 sampleEnv).map (·.executed)
      = some [Events.EVENT_BLIZZARD, Events.EVENT_CLEAVE] := by decide
  have e2 : (arrivedBoss.UpdateAI 0 raidEnv).map
      (fun o => (o.executed, o.state.events.queue.filter (fun a => decide (a.delay = 0))))
      = some ([Events.EVENT_LIFTOFF],
          [⟨.EVENT_CLEAVE, 0, some .PHASE_GROUND⟩, ⟨.EVENT_TAIL, 0, some .PHASE_GROUND⟩,
           ⟨.EVENT_BLIZZARD, 0, some .PHASE_GROUND⟩]) := by decide
  have e3 : (reengagedBoss.UpdateAI 7000 raidEnv).map
      (fun o => (o.executed,
        decide ((⟨.EVENT_ICEBOLT, 0, some .PHASE_FLIGHT⟩ : ScheduledAction)
          ∈ o.state.events.queue)))
      = some ([Events.EVENT_CLEAVE], true) := by decide
  refine ⟨⟨hb, by decide, ?_⟩, ⟨hl, by decide, ?_⟩, ⟨hr, by decide, ?_⟩⟩
  · obtain ⟨out, hout, h1, h2, _⟩ := (phase_invariant busyBoss hb 3000 sampleEnv).2
    rw [hout] at e1
    exact ⟨out, hout, by simpa using e1, h1, h2⟩
  · obtain ⟨out, hout, h1, _, h3⟩ := (phase_invariant arrivedBoss hl 0 raidEnv).2
    rw [hout] at e2
    simp only [Option.map_some', Option.some.injEq, Prod.mk.injEq] at e2
    exact ⟨out, hout, e2.1, e2.2, h1, h3⟩
  · obtain ⟨out, hout, h1, h2, _⟩ := (phase_invariant reengagedBoss hr 7000 raidEnv).2
    rw [hout] at e3
    simp only [Option.map_some', Option.some.injEq, Prod.mk.injEq, decide_eq_true_eq] at e3
    exact ⟨out, hout, e3.1, e3.2, h1, h2⟩

/-! ### The flight sequence -/

end Sapphiron
